import Mathlib

/-
  Verification of the Connect4Bot 7x7 solver (Rust sources under src/).

  The Rust code is shallowly embedded: u64 bitboards become Nat (all values
  stay below 2^56 on the paths modelled; shifts that could wrap in Rust are
  noted where they matter), i8 evaluations become Int, and the mutable
  caches and node counter are threaded explicitly.  Definitions mirror the
  source functions of src/engine.rs, src/state.rs, src/threats.rs and
  src/caches.rs under their source names.
-/

set_option maxHeartbeats 1600000

namespace Connect4

/-! ### Constants (src/engine.rs lines 10-26, src/caches.rs lines 4-6) -/

def ROWS : Nat := 7

def COLS : Nat := 7

def BOARD_BITS : Nat := 56

def BOARD_MASK : Nat := (1 <<< BOARD_BITS) - 1

def COL_BITS : Nat := 8

def COLUMN_MASK : Nat := (1 <<< COL_BITS) - 1

def MAX_TOTAL_MOVES : Int := 49

def MAX_PLAYER_MOVES : Int := 25

def MAX_EVAL : Int := 22

def MIN_EVAL : Int := -MAX_EVAL

def DRAW : Int := 0

def DEFAULT_MOVE_ORDER : Nat :=
  (3 <<< 0) ||| (2 <<< 4) ||| (4 <<< 8) ||| (5 <<< 12) ||| (1 <<< 16) ||| (6 <<< 20) ||| (0 <<< 24)

def IS_LEGAL : Nat := 0b01111111011111110111111101111111011111110111111101111111

def CACHE_VALUE_SHIFT : Nat := 56

def CACHE_SIZE : Nat := (1 <<< 19) + 1

def BEGINNING_GAME_CACHE_DEPTH : Int := 32

/-- One bit per column slot at the sentinel position (bit 7 of each slot). -/
def SENTINEL_MASK : Nat :=
  (1 <<< 7) ||| (1 <<< 15) ||| (1 <<< 23) ||| (1 <<< 31) ||| (1 <<< 39) ||| (1 <<< 47) ||| (1 <<< 55)

/-! ### Bitboard primitives (src/engine.rs lines 126-157)

`reflect_bitboard` iterates i over 0, 8, ..., 48 (the Rust
`(0..BOARD_BITS).step_by(COL_BITS)`), accumulating
`reflected |= ((state >> i) & COLUMN_MASK) << ((BOARD_BITS - COL_BITS) - i)`. -/

def reflect_bitboard (state : Nat) : Nat :=
  [0, 8, 16, 24, 32, 40, 48].foldl
    (fun reflected i => reflected ||| (((state >>> i) &&& COLUMN_MASK) <<< (48 - i))) 0

def state_bitboard (curr_pieces height_map : Nat) : Nat :=
  let bitboard := curr_pieces ||| height_map
  let reflected_bitboard := reflect_bitboard bitboard
  min bitboard reflected_bitboard

/-- is_win from src/engine.rs: for each direction d in CONNECTION_DIRECTIONS =
[1, 7, 8, 9], fold `connections &= connections >> d` three times and test
against zero; the Rust early return is List.any. -/
def is_win (pieces : Nat) : Bool :=
  [1, 7, 8, 9].any fun d =>
    ((List.range 3).foldl (fun connections _ => connections &&& (connections >>> d)) pieces) != 0

/-! ### Generic bit lemmas -/

theorem testBit_255 (i : Nat) : Nat.testBit 255 i = decide (i < 8) := by
  have h : (255 : Nat) = 2 ^ 8 - 1 := by norm_num
  rw [h, Nat.testBit_two_pow_sub_one]

theorem ne_zero_iff_exists_testBit (x : Nat) : x ≠ 0 ↔ ∃ i, x.testBit i = true := by
  constructor
  · intro hx
    by_contra h
    push_neg at h
    exact hx (Nat.eq_of_testBit_eq (fun i => by simp [h i, Nat.zero_testBit]))
  · rintro ⟨i, hi⟩ rfl
    simp [Nat.zero_testBit] at hi

theorem and_board_mask_iff (x : Nat) : x &&& BOARD_MASK = x ↔ x < 2 ^ 56 := by
  have hm : (BOARD_MASK : Nat) = 2 ^ 56 - 1 := by decide
  rw [hm, Nat.and_pow_two_sub_one_eq_mod]
  constructor
  · intro h
    rw [← h]
    exact Nat.mod_lt _ (by positivity)
  · exact Nat.mod_eq_of_lt

/-! ### Reflection lemmas -/

theorem reflect_unfold (s : Nat) : reflect_bitboard s =
    (((s >>> 0) &&& 255) <<< 48) ||| (((s >>> 8) &&& 255) <<< 40) |||
    (((s >>> 16) &&& 255) <<< 32) ||| (((s >>> 24) &&& 255) <<< 24) |||
    (((s >>> 32) &&& 255) <<< 16) ||| (((s >>> 40) &&& 255) <<< 8) |||
    (((s >>> 48) &&& 255) <<< 0) := by
  have h : ((1 <<< 8 : Nat) - 1) = 255 := by decide
  simp only [reflect_bitboard, List.foldl, COLUMN_MASK, COL_BITS, h]
  norm_num [Nat.or_assoc]

theorem testBit_reflect (s : Nat) (c r : Nat) (hc : c < 7) (hr : r < 8) :
    (reflect_bitboard s).testBit (8 * c + r) = s.testBit (8 * (6 - c) + r) := by
  rw [reflect_unfold]
  simp only [Nat.testBit_or, Nat.testBit_shiftLeft, Nat.testBit_and, Nat.testBit_shiftRight,
    testBit_255]
  interval_cases c <;> interval_cases r <;> simp

theorem testBit_reflect_high (s : Nat) (n : Nat) (hn : 56 ≤ n) :
    (reflect_bitboard s).testBit n = false := by
  rw [reflect_unfold]
  simp only [Nat.testBit_or, Nat.testBit_shiftLeft, Nat.testBit_and, Nat.testBit_shiftRight,
    testBit_255]
  have h0 : ¬(n - 48 < 8) := by omega
  have h1 : ¬(n - 40 < 8) := by omega
  have h2 : ¬(n - 32 < 8) := by omega
  have h3 : ¬(n - 24 < 8) := by omega
  have h4 : ¬(n - 16 < 8) := by omega
  have h5 : ¬(n - 8 < 8) := by omega
  have h6 : ¬(n - 0 < 8) := by omega
  have h7 : ¬(n < 8) := by omega
  simp [h0, h1, h2, h3, h4, h5, h6, h7]

theorem reflect_lt (s : Nat) : reflect_bitboard s < 2 ^ 56 := by
  apply Nat.lt_pow_two_of_testBit
  intro i hi
  exact testBit_reflect_high s i hi

theorem reflect_reflect (s : Nat) (hs : s < 2 ^ 56) :
    reflect_bitboard (reflect_bitboard s) = s := by
  apply Nat.eq_of_testBit_eq
  intro n
  rcases Nat.lt_or_ge n 56 with hn | hn
  · have hc : n / 8 < 7 := by omega
    have hr : n % 8 < 8 := Nat.mod_lt _ (by norm_num)
    have hn' : n = 8 * (n / 8) + n % 8 := by omega
    rw [hn', testBit_reflect _ _ _ hc hr, testBit_reflect _ _ _ (by omega) hr]
    have h6 : 6 - (6 - n / 8) = n / 8 := by omega
    rw [h6]
  · rw [testBit_reflect_high _ _ hn]
    exact (Nat.testBit_lt_two_pow (Nat.lt_of_lt_of_le hs
      (Nat.pow_le_pow_right (by norm_num) hn))).symm

theorem reflect_or (x y : Nat) :
    reflect_bitboard (x ||| y) = reflect_bitboard x ||| reflect_bitboard y := by
  apply Nat.eq_of_testBit_eq
  intro n
  rcases Nat.lt_or_ge n 56 with hn | hn
  · have hc : n / 8 < 7 := by omega
    have hr : n % 8 < 8 := Nat.mod_lt _ (by norm_num)
    have hn' : n = 8 * (n / 8) + n % 8 := by omega
    rw [hn', Nat.testBit_or, testBit_reflect _ _ _ hc hr, testBit_reflect _ _ _ hc hr,
      testBit_reflect _ _ _ hc hr, Nat.testBit_or]
  · rw [Nat.testBit_or, testBit_reflect_high _ _ hn, testBit_reflect_high _ _ hn,
      testBit_reflect_high _ _ hn]
    rfl

/-! ### is_win characterisation -/

theorem connections_testBit (p d b : Nat) :
    ((List.range 3).foldl (fun c _ => c &&& (c >>> d)) p).testBit b =
      (p.testBit b && p.testBit (b + d) && p.testBit (b + 2 * d) && p.testBit (b + 3 * d)) := by
  simp only [List.range, List.foldl, Nat.testBit_and, Nat.testBit_shiftRight]
  have e1 : d + b = b + d := by omega
  have e2 : d + (b + d) = b + 2 * d := by omega
  have e3 : d + (b + 2 * d) = b + 3 * d := by omega
  rw [e1, e2, e3]
  cases p.testBit b <;> cases p.testBit (b + d) <;> cases p.testBit (b + 2 * d) <;>
    cases p.testBit (b + 3 * d) <;> rfl

theorem is_win_iff (p : Nat) :
    is_win p = true ↔ ∃ b d, (d = 1 ∨ d = 7 ∨ d = 8 ∨ d = 9) ∧
      p.testBit b = true ∧ p.testBit (b + d) = true ∧
      p.testBit (b + 2 * d) = true ∧ p.testBit (b + 3 * d) = true := by
  simp only [is_win, List.any_eq_true, bne_iff_ne, List.mem_cons, List.not_mem_nil, or_false]
  constructor
  · rintro ⟨d, hd, hne⟩
    obtain ⟨b, hb⟩ := (ne_zero_iff_exists_testBit _).mp hne
    rw [connections_testBit] at hb
    simp only [Bool.and_eq_true] at hb
    exact ⟨b, d, by tauto, by tauto, by tauto, by tauto, by tauto⟩
  · rintro ⟨b, d, hd, h0, h1, h2, h3⟩
    refine ⟨d, by tauto, ?_⟩
    rw [ne_zero_iff_exists_testBit]
    exact ⟨b, by rw [connections_testBit]; simp [h0, h1, h2, h3]⟩

/-! ### Threat counting (src/threats.rs lines 70-86)

The Rust inner loop `while cell < limit { threat_count += is_win(...); cell <<= 1 }`
runs at most seven times whenever the cell bit is nonzero (the only case the
solver ever reaches: a one-hot height map column chunk); fuel 8 therefore
covers every terminating execution of the source loop. -/

def threat_cells_loop : Nat → Nat → Nat → Nat → Nat
  | 0, _, _, _ => 0
  | fuel + 1, pieces, cell, limit =>
    if cell < limit then
      (if is_win (pieces ||| cell) then 1 else 0) + threat_cells_loop fuel pieces (cell <<< 1) limit
    else 0

def count_threats (pieces height_map : Nat) : Nat :=
  (List.range 7).foldl (fun threat_count col =>
    let col_mask := COLUMN_MASK <<< (col <<< 3)
    let limit := col_mask >>> 1
    threat_count + threat_cells_loop 8 pieces (height_map &&& col_mask) limit) 0

/-- Specification-side count for one column: the number of cells of column
`col` at or above the lowest empty cell (the height bit) and below the
sentinel whose filling by `pieces` completes four-in-a-row. -/
def bit_index (chunk : Nat) : Nat := (List.range 8).findIdx (chunk.testBit ·)

def column_threat_cells (pieces height_map col : Nat) : Nat :=
  ((List.range 7).filter (fun r =>
    decide (bit_index ((height_map >>> (8 * col)) &&& 255) ≤ r) &&
      is_win (pieces ||| (1 <<< (8 * col + r))))).length

/-- Validity of a height map: every column slot holds exactly one bit. -/
def one_hot_height_map (height_map : Nat) : Prop :=
  ∀ c < 7, ∃ k < 8, (height_map >>> (8 * c)) &&& 255 = 2 ^ k

instance (height_map : Nat) : Decidable (one_hot_height_map height_map) := by
  unfold one_hot_height_map
  infer_instance

theorem bit_index_two_pow (k : Nat) (hk : k < 8) : bit_index (2 ^ k) = k := by
  interval_cases k <;> decide

theorem and_mask_eq (x c : Nat) :
    x &&& (COLUMN_MASK <<< (c <<< 3)) = ((x >>> (8 * c)) &&& 255) <<< (8 * c) := by
  have hmask : (COLUMN_MASK <<< (c <<< 3) : Nat) = 255 <<< (8 * c) := by
    have h1 : (COLUMN_MASK : Nat) = 255 := by decide
    have h2 : c <<< 3 = 8 * c := by
      rw [Nat.shiftLeft_eq]
      ring
    rw [h1, h2]
  rw [hmask]
  apply Nat.eq_of_testBit_eq
  intro n
  simp only [Nat.testBit_and, Nat.testBit_shiftLeft, Nat.testBit_shiftRight, testBit_255]
  by_cases hn : 8 * c ≤ n
  · have he : 8 * c + (n - 8 * c) = n := by omega
    simp [hn, he, Bool.and_comm, Bool.and_assoc, Bool.and_left_comm]
  · simp [hn]

theorem cell_lt_limit (c h : Nat) (hc : c < 7) (hh : h ≤ 7) :
    2 ^ (8 * c + h) < (COLUMN_MASK <<< (c <<< 3)) >>> 1 ↔ h < 7 := by
  interval_cases c <;> interval_cases h <;> decide

theorem loop_eq_countP (p c : Nat) (hc : c < 7) :
    ∀ (fuel h : Nat), h ≤ 7 → 7 - h ≤ fuel →
    threat_cells_loop fuel p (2 ^ (8 * c + h)) ((COLUMN_MASK <<< (c <<< 3)) >>> 1) =
      ((List.range' h (7 - h)).filter (fun r => is_win (p ||| (1 <<< (8 * c + r))))).length
  | 0, h, hh, hfuel => by
    have h7 : h = 7 := by omega
    subst h7
    simp [threat_cells_loop]
  | fuel + 1, h, hh, hfuel => by
    rw [threat_cells_loop]
    by_cases hlt : h < 7
    · rw [if_pos ((cell_lt_limit c h hc hh).mpr hlt)]
      have hshift : (2 ^ (8 * c + h)) <<< 1 = 2 ^ (8 * c + (h + 1)) := by
        rw [Nat.shiftLeft_eq]
        ring
      rw [hshift, loop_eq_countP p c hc fuel (h + 1) (by omega) (by omega)]
      have hrange : 7 - h = (7 - (h + 1)) + 1 := by omega
      rw [hrange, List.range'_succ]
      have hpow : (1 <<< (8 * c + h) : Nat) = 2 ^ (8 * c + h) := by
        rw [Nat.shiftLeft_eq]
        ring
      simp only [List.filter_cons, hpow]
      by_cases hw : is_win (p ||| 2 ^ (8 * c + h)) <;> simp [hw] <;> omega
    · rw [if_neg (by rw [cell_lt_limit c h hc hh]; omega)]
      have h7 : h = 7 := by omega
      subst h7
      simp

theorem filter_range_eq_range' (W : Nat → Bool) (h : Nat) (hh : h ≤ 7) :
    ((List.range 7).filter (fun r => decide (h ≤ r) && W r)).length =
      ((List.range' h (7 - h)).filter W).length := by
  have hsplit : List.range 7 = List.range' 0 h ++ List.range' h (7 - h) := by
    rw [List.range_eq_range']
    have happ := List.range'_append 0 h (7 - h) 1
    have e1 : 1 * h = h := Nat.one_mul h
    have e2 : 7 - h + h = 7 := by omega
    rw [Nat.zero_add, e1, e2] at happ
    exact happ.symm
  rw [hsplit, List.filter_append, List.length_append]
  have h1 : (List.range' 0 h).filter (fun r => decide (h ≤ r) && W r) = [] := by
    apply List.filter_eq_nil_iff.mpr
    intro r hr
    have hlt : r < h := by
      have := List.mem_range'_1.mp hr
      omega
    simp [Nat.not_le.mpr hlt]
  have h2 : (List.range' h (7 - h)).filter (fun r => decide (h ≤ r) && W r) =
      (List.range' h (7 - h)).filter W := by
    apply List.filter_congr
    intro r hr
    have hle : h ≤ r := by
      have := List.mem_range'_1.mp hr
      omega
    simp [hle]
  rw [h1, h2]
  simp

theorem count_threats_eq_total (p h : Nat) (hh : one_hot_height_map h) :
    count_threats p h = ((List.range 7).map (column_threat_cells p h)).sum := by
  have hcol : ∀ c, c < 7 →
      threat_cells_loop 8 p (h &&& (COLUMN_MASK <<< (c <<< 3))) ((COLUMN_MASK <<< (c <<< 3)) >>> 1)
        = column_threat_cells p h c := by
    intro c hc
    obtain ⟨k, hk, hchunk⟩ := hh c hc
    have hcell : h &&& (COLUMN_MASK <<< (c <<< 3)) = 2 ^ (8 * c + k) := by
      rw [and_mask_eq, hchunk, Nat.shiftLeft_eq, Nat.pow_add]
      ring
    rw [hcell, loop_eq_countP p c hc 8 k (by omega) (by omega)]
    unfold column_threat_cells
    rw [hchunk, bit_index_two_pow k hk, filter_range_eq_range' _ k (by omega)]
  unfold count_threats
  simp only [List.range_succ, List.range_zero, List.foldl_append, List.foldl_cons,
    List.foldl_nil, List.map_append, List.map_cons, List.map_nil, List.sum_append,
    List.sum_cons, List.sum_nil]
  rw [hcol 0 (by omega), hcol 1 (by omega), hcol 2 (by omega), hcol 3 (by omega),
    hcol 4 (by omega), hcol 5 (by omega), hcol 6 (by omega)]
  omega

/-! ### Concrete boards used as witnesses and counterexamples -/

/-- Pieces with three in a row at the bottom of column 1 (bits 8, 9, 10). -/
def threatP : Nat := (1 <<< 8) ||| (1 <<< 9) ||| (1 <<< 10)

/-- One-hot height map: column 1 filled to height 3, all others empty. -/
def threatH : Nat :=
  (1 <<< 0) ||| (1 <<< 11) ||| (1 <<< 16) ||| (1 <<< 24) ||| (1 <<< 32) |||
    (1 <<< 40) ||| (1 <<< 48)

/-! ### Claim theorems: C10, C5, C4, C2 -/

/-- C10: reflect_bitboard is an involution on words whose set bits lie within
the 56-bit BOARD_MASK, and its result again lies within BOARD_MASK. -/
theorem C10_reflect_involution (B : Nat) (hB : B &&& BOARD_MASK = B) :
    reflect_bitboard (reflect_bitboard B) = B ∧
      (reflect_bitboard B) &&& BOARD_MASK = reflect_bitboard B := by
  have hlt := (and_board_mask_iff B).mp hB
  exact ⟨reflect_reflect B hlt, (and_board_mask_iff _).mpr (reflect_lt B)⟩

/-- Witness for C10 at the concrete board word 3. -/
theorem C10_reflect_involution_witness :
    (3 : Nat) &&& BOARD_MASK = 3 ∧
      (reflect_bitboard (reflect_bitboard 3) = 3 ∧
        (reflect_bitboard 3) &&& BOARD_MASK = reflect_bitboard 3) :=
  ⟨by decide, C10_reflect_involution 3 (by decide)⟩

/-- C5: the cache fingerprint state_bitboard is invariant under horizontal
reflection of both inputs, for inputs whose bits lie within BOARD_MASK. -/
theorem C5_state_bitboard_reflect_invariant (curr_pieces height_map : Nat)
    (hc : curr_pieces &&& BOARD_MASK = curr_pieces)
    (hh : height_map &&& BOARD_MASK = height_map) :
    state_bitboard (reflect_bitboard curr_pieces) (reflect_bitboard height_map) =
      state_bitboard curr_pieces height_map := by
  have hc' := (and_board_mask_iff _).mp hc
  have hh' := (and_board_mask_iff _).mp hh
  unfold state_bitboard
  have hb : curr_pieces ||| height_map < 2 ^ 56 := Nat.or_lt_two_pow hc' hh'
  simp only [← reflect_or, reflect_reflect _ hb]
  exact Nat.min_comm _ _

/-- Witness for C5 at the concrete board of threatP/threatH. -/
theorem C5_state_bitboard_reflect_invariant_witness :
    (threatP &&& BOARD_MASK = threatP ∧ threatH &&& BOARD_MASK = threatH) ∧
      state_bitboard (reflect_bitboard threatP) (reflect_bitboard threatH) =
        state_bitboard threatP threatH :=
  ⟨⟨by decide, by decide⟩,
    C5_state_bitboard_reflect_invariant threatP threatH (by decide) (by decide)⟩

/-- C4: for pieces within the board region with sentinel bits clear, is_win
returns true iff four bits in arithmetic progression with stride 1, 7, 8 or 9
are all set. -/
theorem C4_is_win_iff (pieces : Nat) (hb : pieces &&& BOARD_MASK = pieces)
    (hs : pieces &&& SENTINEL_MASK = 0) :
    is_win pieces = true ↔ ∃ b d, (d = 1 ∨ d = 7 ∨ d = 8 ∨ d = 9) ∧
      pieces.testBit b = true ∧ pieces.testBit (b + d) = true ∧
      pieces.testBit (b + 2 * d) = true ∧ pieces.testBit (b + 3 * d) = true :=
  is_win_iff pieces

/-- Witness for C4 at the concrete pieces word threatP (no four-in-a-row). -/
theorem C4_is_win_iff_witness :
    (threatP &&& BOARD_MASK = threatP ∧ threatP &&& SENTINEL_MASK = 0) ∧
      (is_win threatP = true ↔ ∃ b d, (d = 1 ∨ d = 7 ∨ d = 8 ∨ d = 9) ∧
        threatP.testBit b = true ∧ threatP.testBit (b + d) = true ∧
        threatP.testBit (b + 2 * d) = true ∧ threatP.testBit (b + 3 * d) = true) :=
  ⟨⟨by decide, by decide⟩, C4_is_win_iff threatP (by decide) (by decide)⟩

/-- C2 counterexample: with three pieces stacked in column 1, the only threat
cell of the board is in column 1, so the claimed packed encoding would need
the 4-bit field at offset 4 to be 1; count_threats actually returns the plain
scalar total 1, whose field at offset 4 is 0. -/
theorem C2_counterexample :
    count_threats threatP threatH = 1 ∧
      column_threat_cells threatP threatH 1 = 1 ∧
      (count_threats threatP threatH >>> (4 * 1)) &&& 15 = 0 := by
  refine ⟨by decide, by decide, by decide⟩

/-- C2 (amended): for every pieces bitboard and valid one-hot height map,
count_threats returns the plain total, over all columns, of the empty cells
at or above the column's lowest empty cell and below the sentinel whose
filling by pieces completes four-in-a-row (the per-column 4-bit packing is
performed by the caller in evaluate_position, not by count_threats). -/
theorem C2_count_threats_total (pieces height_map : Nat)
    (hh : one_hot_height_map height_map) :
    count_threats pieces height_map =
      ((List.range 7).map (column_threat_cells pieces height_map)).sum :=
  count_threats_eq_total pieces height_map hh

/-- Witness for C2 at the concrete board threatP/threatH. -/
theorem C2_count_threats_total_witness :
    one_hot_height_map threatH ∧
      count_threats threatP threatH =
        ((List.range 7).map (column_threat_cells threatP threatH)).sum :=
  ⟨by decide, C2_count_threats_total threatP threatH (by decide)⟩

/-! ### Column chunks

`chunk x c` is the 8-bit column slot `c` of a board word, the unit in which
the per-column invariants of a position are stated. -/

def chunk (x c : Nat) : Nat := (x >>> (8 * c)) &&& 255

theorem chunk_eq_div_mod (x c : Nat) : chunk x c = (x / 2 ^ (8 * c)) % 256 := by
  have h : (255 : Nat) = 2 ^ 8 - 1 := by norm_num
  rw [chunk, Nat.shiftRight_eq_div_pow, h, Nat.and_pow_two_sub_one_eq_mod]

theorem chunk_add_pow (x c h : Nat) (hc : c < 7) (hh : h ≤ 7)
    (hnc : chunk x c + 2 ^ h < 256) (c' : Nat) (hc' : c' < 7) :
    chunk (x + 2 ^ (8 * c + h)) c' = if c' = c then chunk x c + 2 ^ h else chunk x c' := by
  have hb1 : 1 ≤ 2 ^ h := Nat.one_le_two_pow
  have hb : 2 ^ h ≤ 128 := by
    calc 2 ^ h ≤ 2 ^ 7 := Nat.pow_le_pow_right (by norm_num) hh
    _ = 128 := by norm_num
  have hp : 2 ^ (8 * c + h) = 2 ^ (8 * c) * 2 ^ h := by rw [Nat.pow_add]
  simp only [chunk_eq_div_mod] at hnc ⊢
  interval_cases c <;> interval_cases c' <;> simp_all <;> omega

theorem chunk_pow (c h : Nat) (hc : c < 7) (hh : h ≤ 7) (c' : Nat) (hc' : c' < 7) :
    chunk (2 ^ (8 * c + h)) c' = if c' = c then 2 ^ h else 0 := by
  have hb1 : 1 ≤ 2 ^ h := Nat.one_le_two_pow
  have hb : 2 ^ h ≤ 128 := by
    calc 2 ^ h ≤ 2 ^ 7 := Nat.pow_le_pow_right (by norm_num) hh
    _ = 128 := by norm_num
  have hp : 2 ^ (8 * c + h) = 2 ^ (8 * c) * 2 ^ h := by rw [Nat.pow_add]
  simp only [chunk_eq_div_mod]
  interval_cases c <;> interval_cases c' <;> simp_all <;> omega

theorem chunk_shifted (v i : Nat) (hv : v < 256) (hi : i < 7) (c : Nat) (hc : c < 7) :
    chunk (v <<< (8 * i)) c = if c = i then v else 0 := by
  simp only [chunk_eq_div_mod, Nat.shiftLeft_eq]
  interval_cases i <;> interval_cases c <;> simp_all <;> omega

theorem testBit_chunk (x c r : Nat) (hr : r < 8) :
    (chunk x c).testBit r = x.testBit (8 * c + r) := by
  simp [chunk, Nat.testBit_and, Nat.testBit_shiftRight, testBit_255, hr]

theorem chunk_lt (x c : Nat) : chunk x c < 256 := by
  rw [chunk_eq_div_mod]
  exact Nat.mod_lt _ (by norm_num)

theorem testBit_chunk_high (x c r : Nat) (hr : 8 ≤ r) : (chunk x c).testBit r = false := by
  apply Nat.testBit_lt_two_pow
  calc chunk x c < 256 := chunk_lt x c
  _ = 2 ^ 8 := by norm_num
  _ ≤ 2 ^ r := Nat.pow_le_pow_right (by norm_num) hr

theorem chunk_or (x y c : Nat) : chunk (x ||| y) c = chunk x c ||| chunk y c := by
  apply Nat.eq_of_testBit_eq
  intro r
  rcases Nat.lt_or_ge r 8 with hr | hr
  · rw [testBit_chunk _ _ _ hr, Nat.testBit_or, Nat.testBit_or,
      testBit_chunk _ _ _ hr, testBit_chunk _ _ _ hr]
  · rw [testBit_chunk_high _ _ _ hr, Nat.testBit_or,
      testBit_chunk_high _ _ _ hr, testBit_chunk_high _ _ _ hr]
    rfl

theorem chunk_zero (c : Nat) : chunk 0 c = 0 := by
  simp [chunk]

theorem eq_of_chunks_eq (x y : Nat) (hx : x < 2 ^ 56) (hy : y < 2 ^ 56)
    (h : ∀ c < 7, chunk x c = chunk y c) : x = y := by
  apply Nat.eq_of_testBit_eq
  intro n
  rcases Nat.lt_or_ge n 56 with hn | hn
  · have hc : n / 8 < 7 := by omega
    have hr : n % 8 < 8 := Nat.mod_lt _ (by norm_num)
    have hn' : n = 8 * (n / 8) + n % 8 := by omega
    rw [hn', ← testBit_chunk _ _ _ hr, ← testBit_chunk _ _ _ hr, h _ hc]
  · rw [Nat.testBit_lt_two_pow (Nat.lt_of_lt_of_le hx (Nat.pow_le_pow_right (by norm_num) hn)),
      Nat.testBit_lt_two_pow (Nat.lt_of_lt_of_le hy (Nat.pow_le_pow_right (by norm_num) hn))]

theorem or_eq_add_of_and_eq_zero : ∀ x y : Nat, x &&& y = 0 → x ||| y = x + y := by
  intro x
  induction x using Nat.strong_induction_on with
  | _ x IH =>
    intro y h
    by_cases hx : x = 0
    · simp [hx]
    have hxlt : x / 2 < x := Nat.div_lt_self (Nat.pos_of_ne_zero hx) (by norm_num)
    have h2 : x / 2 &&& y / 2 = 0 := by
      rw [← Nat.and_div_two, h]
    have IH2 := IH (x / 2) hxlt (y / 2) h2
    have hor2 : (x ||| y) / 2 = x / 2 ||| y / 2 := Nat.or_div_two
    have hmod : (x &&& y) % 2 = 0 := by rw [h]
    have hxm := Nat.mod_two_eq_zero_or_one x
    have hym := Nat.mod_two_eq_zero_or_one y
    have horm := Nat.mod_two_eq_zero_or_one (x ||| y)
    have horm2 : (x ||| y) % 2 = 1 ↔ x % 2 = 1 ∨ y % 2 = 1 := Nat.or_mod_two_eq_one
    have hxy := Nat.div_add_mod x 2
    have hyy := Nat.div_add_mod y 2
    have hoy := (Nat.div_add_mod (x ||| y) 2).symm
    rw [hoy, hor2, IH2]
    rcases hxm with h1 | h1 <;> rcases hym with h2' | h2'
    · have hz : (x ||| y) % 2 = 0 := by
        rcases horm with h3 | h3
        · exact h3
        · rcases horm2.mp h3 with h4 | h4 <;> omega
      omega
    · have ho : (x ||| y) % 2 = 1 := horm2.mpr (Or.inr h2')
      omega
    · have ho : (x ||| y) % 2 = 1 := horm2.mpr (Or.inl h1)
      omega
    · have hcon : (x &&& y) % 2 = 1 := Nat.and_mod_two_eq_one.mpr ⟨h1, h2'⟩
      omega

/-! ### The State structure (src/state.rs) -/

/-- Rust u64::ilog2 restricted to the sub-256 arguments from_bitboard feeds it
(each column byte): the index of the highest set bit among bits 0..7.
Rust panics on 0; this total model returns 0 there. -/
def ilog2 (n : Nat) : Nat := (List.range 8).foldl (fun acc i => if n.testBit i then i else acc) 0

structure State where
  curr_pieces : Nat
  opp_pieces : Nat
  height_map : Nat
  moves_made : Int
deriving DecidableEq

def State.from_bitboard (bitboard : Nat) : State :=
  (List.range 7).foldl (fun state i =>
    let col_bits := (bitboard >>> (i <<< 3)) &&& COLUMN_MASK
    let height := ilog2 col_bits
    let curr_col_mask := (1 <<< height) - 1
    { curr_pieces := state.curr_pieces ||| ((col_bits &&& curr_col_mask) <<< (i <<< 3)),
      opp_pieces := state.opp_pieces ||| (((curr_col_mask <<< 1) + 1 - col_bits) <<< (i <<< 3)),
      height_map := state.height_map ||| (1 <<< (height + (i <<< 3))),
      moves_made := state.moves_made + (height : Int) })
    ⟨0, 0, 0, 0⟩

def State.to_bitboard (s : State) : Nat := state_bitboard s.curr_pieces s.height_map

/-- open_row macro from the sources: the height-map bit of column col. -/
def open_row (height_map col : Nat) : Nat := height_map &&& (COLUMN_MASK <<< (col <<< 3))

def State.play_move (s : State) (col : Nat) : State :=
  let next_move := open_row s.height_map col
  { curr_pieces := s.opp_pieces,
    opp_pieces := s.curr_pieces ||| next_move,
    height_map := s.height_map + next_move,
    moves_made := s.moves_made + 1 }

/-- start_state from src/state.rs: State.encode of the all-blank 7x7 board,
which yields zero pieces, the height bit of each column at its bottom cell
and zero moves made. -/
def State.start_state : State :=
  { curr_pieces := 0, opp_pieces := 0,
    height_map := (1 <<< 0) ||| (1 <<< 8) ||| (1 <<< 16) ||| (1 <<< 24) ||| (1 <<< 32) |||
      (1 <<< 40) ||| (1 <<< 48),
    moves_made := 0 }

/-- States reachable from the empty board by legal column moves, with the
legality test of next_states in src/state.rs. -/
inductive Reachable : State → Prop
  | start : Reachable State.start_state
  | step (s : State) (col : Nat) (hcol : col < 7)
      (hlegal : (open_row s.height_map col) &&& IS_LEGAL ≠ 0)
      (h : Reachable s) : Reachable (s.play_move col)

/-! ### State invariants preserved along reachable play -/

def ValidColumns (s : State) (hts : Nat → Nat) : Prop :=
  ∀ c < 7, hts c ≤ 7 ∧
    chunk s.height_map c = 2 ^ hts c ∧
    chunk s.curr_pieces c ||| chunk s.opp_pieces c = 2 ^ hts c - 1 ∧
    chunk s.curr_pieces c &&& chunk s.opp_pieces c = 0

def ValidState (s : State) : Prop :=
  ∃ hts : Nat → Nat, ValidColumns s hts ∧
    s.curr_pieces < 2 ^ 56 ∧ s.opp_pieces < 2 ^ 56 ∧ s.height_map < 2 ^ 56 ∧
    s.moves_made = ((List.range 7).map (fun c => (hts c : Int))).sum

theorem valid_start : ValidState State.start_state := by
  refine ⟨fun _ => 0, ?_, by decide, by decide, by decide, by decide⟩
  intro c hc
  interval_cases c <;> exact ⟨by norm_num, by decide, by decide, by decide⟩

theorem open_row_eq (s : State) (hts : Nat → Nat) (hv : ValidColumns s hts)
    (col : Nat) (hcol : col < 7) :
    open_row s.height_map col = 2 ^ (8 * col + hts col) := by
  obtain ⟨hle, hchunk, -, -⟩ := hv col hcol
  rw [open_row, and_mask_eq]
  show chunk s.height_map col <<< (8 * col) = _
  rw [hchunk, Nat.shiftLeft_eq, Nat.pow_add]
  ring

theorem legal_iff (c h : Nat) (hc : c < 7) (hh : h ≤ 7) :
    2 ^ (8 * c + h) &&& IS_LEGAL ≠ 0 ↔ h < 7 := by
  interval_cases c <;> interval_cases h <;> decide

theorem two_pow_lt_56 (c h : Nat) (hc : c < 7) (hh : h ≤ 7) : 2 ^ (8 * c + h) < 2 ^ 56 :=
  Nat.pow_lt_pow_right (by norm_num) (by omega)

theorem and_two_pow_eq_zero_of_lt (x h : Nat) (hx : x < 2 ^ h) : x &&& 2 ^ h = 0 := by
  apply Nat.eq_of_testBit_eq
  intro i
  simp only [Nat.testBit_and, Nat.testBit_two_pow, Nat.zero_testBit]
  by_cases hi : h = i
  · subst hi
    simp [Nat.testBit_lt_two_pow hx]
  · simp [hi]

theorem le_or_left (x y : Nat) : x ≤ x ||| y := by
  apply Nat.le_of_testBit
  intro i hi
  rw [Nat.testBit_or, hi]
  rfl

theorem or_pow_sub_one (h : Nat) (hh : h ≤ 7) : (2 ^ h - 1) ||| 2 ^ h = 2 ^ (h + 1) - 1 := by
  interval_cases h <;> decide

theorem valid_play_move (s : State) (hv : ValidState s) (col : Nat) (hcol : col < 7)
    (hlegal : (open_row s.height_map col) &&& IS_LEGAL ≠ 0) :
    ValidState (s.play_move col) := by
  obtain ⟨hts, hcols, hcurr_lt, hopp_lt, hheight_lt, hmoves⟩ := hv
  obtain ⟨hle, hchunk, hunion, hdisj⟩ := hcols col hcol
  have hor := open_row_eq s hts hcols col hcol
  rw [hor] at hlegal
  have hlt7 : hts col < 7 := (legal_iff col (hts col) hcol hle).mp hlegal
  have hpow_le : (2 : Nat) ^ hts col ≤ 64 := by
    calc (2 : Nat) ^ hts col ≤ 2 ^ 6 := Nat.pow_le_pow_right (by norm_num) (by omega)
    _ = 64 := by norm_num
  have hnc : chunk s.height_map col + 2 ^ hts col < 256 := by
    rw [hchunk]
    omega
  refine ⟨fun c => if c = col then hts col + 1 else hts c, ?_, hopp_lt, ?_, ?_, ?_⟩
  · intro c hc
    obtain ⟨hle2, hchunk2, hunion2, hdisj2⟩ := hcols c hc
    have hcp : chunk (s.play_move col).curr_pieces c = chunk s.opp_pieces c := rfl
    by_cases hceq : c = col
    · subst hceq
      have hhm : chunk (s.play_move c).height_map c = chunk s.height_map c + 2 ^ hts c := by
        show chunk (s.height_map + open_row s.height_map c) c = _
        rw [hor, chunk_add_pow s.height_map c (hts c) hc (by omega) hnc c hc]
        simp
      have hop : chunk (s.play_move c).opp_pieces c =
          chunk s.curr_pieces c ||| 2 ^ hts c := by
        show chunk (s.curr_pieces ||| open_row s.height_map c) c = _
        rw [hor, chunk_or, chunk_pow c (hts c) hc (by omega) c hc]
        simp
      simp only [eq_self_iff_true, if_true]
      refine ⟨by omega, ?_, ?_, ?_⟩
      · rw [hhm, hchunk, Nat.pow_succ]
        ring
      · rw [hcp, hop, ← Nat.or_assoc, Nat.or_comm (chunk s.opp_pieces c) (chunk s.curr_pieces c),
          hunion, or_pow_sub_one (hts c) (by omega)]
      · rw [hcp, hop, Nat.and_or_distrib_left]
        have h1 : chunk s.opp_pieces c &&& chunk s.curr_pieces c = 0 := by
          rw [Nat.and_comm]
          exact hdisj
        have h2 : chunk s.opp_pieces c &&& 2 ^ hts c = 0 := by
          apply and_two_pow_eq_zero_of_lt
          calc chunk s.opp_pieces c ≤ chunk s.opp_pieces c ||| chunk s.curr_pieces c :=
                le_or_left _ _
          _ = chunk s.curr_pieces c ||| chunk s.opp_pieces c := Nat.or_comm _ _
          _ = 2 ^ hts c - 1 := hunion
          _ < 2 ^ hts c := by
                have : (1 : Nat) ≤ 2 ^ hts c := Nat.one_le_two_pow
                omega
        rw [h1, h2]
        decide
    · have hhm : chunk (s.play_move col).height_map c = chunk s.height_map c := by
        show chunk (s.height_map + open_row s.height_map col) c = _
        rw [hor, chunk_add_pow s.height_map col (hts col) hcol (by omega) hnc c hc,
          if_neg hceq]
      have hop : chunk (s.play_move col).opp_pieces c = chunk s.curr_pieces c := by
        show chunk (s.curr_pieces ||| open_row s.height_map col) c = _
        rw [hor, chunk_or, chunk_pow col (hts col) hcol (by omega) c hc, if_neg hceq,
          Nat.or_zero]
      simp only [if_neg hceq]
      refine ⟨hle2, by rw [hhm, hchunk2], ?_, ?_⟩
      · rw [hcp, hop, Nat.or_comm]
        exact hunion2
      · rw [hcp, hop, Nat.and_comm]
        exact hdisj2
  · show s.curr_pieces ||| open_row s.height_map col < 2 ^ 56
    rw [hor]
    exact Nat.or_lt_two_pow hcurr_lt (two_pow_lt_56 col (hts col) hcol (by omega))
  · show s.height_map + open_row s.height_map col < 2 ^ 56
    rw [hor]
    obtain ⟨hle6, hchunk6, -, -⟩ := hcols 6 (by norm_num)
    have hd6 : s.height_map / 2 ^ 48 = 2 ^ hts 6 := by
      have hc6 := chunk_eq_div_mod s.height_map 6
      have hdiv_lt : s.height_map / 2 ^ 48 < 256 := by
        apply Nat.div_lt_of_lt_mul
        calc s.height_map < 2 ^ 56 := hheight_lt
        _ = 2 ^ 48 * 256 := by norm_num
      rw [show (8 * 6 : Nat) = 48 by norm_num] at hc6
      rw [← hchunk6, hc6, Nat.mod_eq_of_lt hdiv_lt]
    have hts6_le : (2 : Nat) ^ hts 6 ≤ 128 := by
      calc (2 : Nat) ^ hts 6 ≤ 2 ^ 7 := Nat.pow_le_pow_right (by norm_num) hle6
      _ = 128 := by norm_num
    have hsplit := Nat.div_add_mod s.height_map (2 ^ 48)
    have hb1 : (1 : Nat) ≤ 2 ^ hts col := Nat.one_le_two_pow
    by_cases hc6 : col = 6
    · subst hc6
      have hpadd : (2 : Nat) ^ (8 * 6 + hts 6) = 2 ^ 48 * 2 ^ hts 6 := by
        rw [show (8 * 6 : Nat) = 48 by norm_num, Nat.pow_add]
      rw [hpadd]
      omega
    · have hpadd : (2 : Nat) ^ (8 * col + hts col) ≤ 2 ^ 46 := by
        apply Nat.pow_le_pow_right (by norm_num)
        omega
      omega
  · show s.moves_made + 1 = _
    rw [hmoves]
    simp only [List.range_succ, List.range_zero, List.map_append, List.map_cons, List.map_nil,
      List.sum_append, List.sum_cons, List.sum_nil, List.nil_append]
    interval_cases col <;> simp <;> omega

theorem testBit_false_of_lt (x h i : Nat) (hx : x < 2 ^ h) (hi : h ≤ i) :
    x.testBit i = false := by
  apply Nat.testBit_lt_two_pow
  exact Nat.lt_of_lt_of_le hx (Nat.pow_le_pow_right (by norm_num) hi)

theorem ilog2_one_hot_top (X h : Nat) (hh : h < 8) (htrue : X.testBit h = true)
    (hfals : ∀ i, h < i → X.testBit i = false) : ilog2 X = h := by
  unfold ilog2
  interval_cases h <;>
    simp [List.range_succ, List.foldl_append, List.foldl_cons, List.foldl_nil, htrue, hfals]

theorem ilog2_or_pow (a h : Nat) (ha : a < 2 ^ h) (hh : h < 8) : ilog2 (a ||| 2 ^ h) = h := by
  apply ilog2_one_hot_top _ _ hh
  · rw [Nat.testBit_or, Nat.testBit_two_pow]
    simp
  · intro i hi
    rw [Nat.testBit_or, Nat.testBit_two_pow]
    rw [testBit_false_of_lt a h i ha (by omega)]
    have hne : h ≠ i := by omega
    simp [hne]

theorem or_pow_eq_add (a h : Nat) (ha : a < 2 ^ h) : a ||| 2 ^ h = a + 2 ^ h :=
  or_eq_add_of_and_eq_zero a (2 ^ h) (and_two_pow_eq_zero_of_lt a h ha)

theorem mask_recover_curr (a h : Nat) (ha : a < 2 ^ h) :
    (a ||| 2 ^ h) &&& ((1 <<< h) - 1) = a := by
  have hm : ((1 <<< h) - 1 : Nat) = 2 ^ h - 1 := by
    rw [Nat.shiftLeft_eq, Nat.one_mul]
  rw [hm, or_pow_eq_add a h ha, Nat.and_pow_two_sub_one_eq_mod, Nat.add_mod_right,
    Nat.mod_eq_of_lt ha]

theorem mask_recover_opp (a b h : Nat) (ha : a < 2 ^ h) (hab : a + b = 2 ^ h - 1) :
    ((((1 <<< h) - 1) <<< 1) + 1) - (a ||| 2 ^ h) = b := by
  have hm : ((1 <<< h) - 1 : Nat) = 2 ^ h - 1 := by
    rw [Nat.shiftLeft_eq, Nat.one_mul]
  have hs : ((2 ^ h - 1 : Nat) <<< 1) = (2 ^ h - 1) * 2 := by
    rw [Nat.shiftLeft_eq, Nat.pow_one]
  have h1 : (1 : Nat) ≤ 2 ^ h := Nat.one_le_two_pow
  rw [hm, hs, or_pow_eq_add a h ha]
  omega


theorem shifted_chunk_lt (v i : Nat) (hv : v < 256) (hi : i < 7) : v <<< (8 * i) < 2 ^ 56 := by
  rw [Nat.shiftLeft_eq]
  calc v * 2 ^ (8 * i) < 256 * 2 ^ (8 * i) :=
        (Nat.mul_lt_mul_right (Nat.two_pow_pos _)).mpr hv
  _ = 2 ^ (8 * i + 8) := by rw [Nat.pow_add]; ring
  _ ≤ 2 ^ 56 := Nat.pow_le_pow_right (by norm_num) (by omega)

theorem or_shifted_chunks (x : Nat) (hx : x < 2 ^ 56) :
    ((((((0 ||| (chunk x 0 <<< (8 * 0))) ||| (chunk x 1 <<< (8 * 1))) ||| (chunk x 2 <<< (8 * 2)))
      ||| (chunk x 3 <<< (8 * 3))) ||| (chunk x 4 <<< (8 * 4))) ||| (chunk x 5 <<< (8 * 5)))
      ||| (chunk x 6 <<< (8 * 6)) = x := by
  have hterm : ∀ i, i < 7 → chunk x i <<< (8 * i) < 2 ^ 56 := fun i hi =>
    shifted_chunk_lt (chunk x i) i (chunk_lt x i) hi
  apply eq_of_chunks_eq _ _ ?_ hx
  · intro c hc
    simp only [chunk_or, chunk_zero]
    rw [chunk_shifted (chunk x 0) 0 (chunk_lt x 0) (by omega) c hc,
      chunk_shifted (chunk x 1) 1 (chunk_lt x 1) (by omega) c hc,
      chunk_shifted (chunk x 2) 2 (chunk_lt x 2) (by omega) c hc,
      chunk_shifted (chunk x 3) 3 (chunk_lt x 3) (by omega) c hc,
      chunk_shifted (chunk x 4) 4 (chunk_lt x 4) (by omega) c hc,
      chunk_shifted (chunk x 5) 5 (chunk_lt x 5) (by omega) c hc,
      chunk_shifted (chunk x 6) 6 (chunk_lt x 6) (by omega) c hc]
    interval_cases c <;> simp
  · have h0 : (0 : Nat) ||| chunk x 0 <<< (8 * 0) < 2 ^ 56 := by
      rw [Nat.zero_or]
      exact hterm 0 (by omega)
    exact Nat.or_lt_two_pow (Nat.or_lt_two_pow (Nat.or_lt_two_pow (Nat.or_lt_two_pow
      (Nat.or_lt_two_pow (Nat.or_lt_two_pow h0 (hterm 1 (by omega))) (hterm 2 (by omega)))
      (hterm 3 (by omega))) (hterm 4 (by omega))) (hterm 5 (by omega))) (hterm 6 (by omega))

def fb_col_bits (B i : Nat) : Nat := (B >>> (8 * i)) &&& 255

def fb_curr (B i : Nat) : Nat :=
  (fb_col_bits B i &&& ((1 <<< ilog2 (fb_col_bits B i)) - 1)) <<< (8 * i)

def fb_opp (B i : Nat) : Nat :=
  (((((1 <<< ilog2 (fb_col_bits B i)) - 1) <<< 1) + 1) - fb_col_bits B i) <<< (8 * i)

def fb_h (B i : Nat) : Nat := 1 <<< (ilog2 (fb_col_bits B i) + 8 * i)

theorem from_bitboard_expand (B : Nat) :
    State.from_bitboard B =
      { curr_pieces := ((((((0 ||| fb_curr B 0) ||| fb_curr B 1) ||| fb_curr B 2) ||| fb_curr B 3)
          ||| fb_curr B 4) ||| fb_curr B 5) ||| fb_curr B 6,
        opp_pieces := ((((((0 ||| fb_opp B 0) ||| fb_opp B 1) ||| fb_opp B 2) ||| fb_opp B 3)
          ||| fb_opp B 4) ||| fb_opp B 5) ||| fb_opp B 6,
        height_map := ((((((0 ||| fb_h B 0) ||| fb_h B 1) ||| fb_h B 2) ||| fb_h B 3)
          ||| fb_h B 4) ||| fb_h B 5) ||| fb_h B 6,
        moves_made := ((((((0 + (ilog2 (fb_col_bits B 0) : Int)) + (ilog2 (fb_col_bits B 1) : Int))
          + (ilog2 (fb_col_bits B 2) : Int)) + (ilog2 (fb_col_bits B 3) : Int))
          + (ilog2 (fb_col_bits B 4) : Int)) + (ilog2 (fb_col_bits B 5) : Int))
          + (ilog2 (fb_col_bits B 6) : Int) } := rfl

theorem from_bitboard_roundtrip (s : State) (hv : ValidState s) :
    State.from_bitboard (s.curr_pieces ||| s.height_map) = s := by
  obtain ⟨hts, hcols, hcurr_lt, hopp_lt, hheight_lt, hmoves⟩ := hv
  set B := s.curr_pieces ||| s.height_map with hB
  have hcol : ∀ i, i < 7 →
      fb_col_bits B i = chunk s.curr_pieces i ||| 2 ^ hts i := by
    intro i hi
    obtain ⟨-, hchunk, -, -⟩ := hcols i hi
    show chunk B i = _
    rw [hB, chunk_or, hchunk]
  have hfacts : ∀ i, i < 7 →
      chunk s.curr_pieces i < 2 ^ hts i ∧
      chunk s.curr_pieces i + chunk s.opp_pieces i = 2 ^ hts i - 1 ∧ hts i < 8 := by
    intro i hi
    obtain ⟨hle, -, hunion, hdisj⟩ := hcols i hi
    have h1 : (1 : Nat) ≤ 2 ^ hts i := Nat.one_le_two_pow
    have hc_le : chunk s.curr_pieces i ≤ 2 ^ hts i - 1 := by
      rw [← hunion]
      exact le_or_left _ _
    have hadd : chunk s.curr_pieces i + chunk s.opp_pieces i = 2 ^ hts i - 1 := by
      rw [← or_eq_add_of_and_eq_zero _ _ hdisj, hunion]
    exact ⟨by omega, hadd, by omega⟩
  have hilog : ∀ i, i < 7 → ilog2 (fb_col_bits B i) = hts i := by
    intro i hi
    rw [hcol i hi]
    exact ilog2_or_pow _ _ (hfacts i hi).1 (hfacts i hi).2.2
  have hcurr : ∀ i, i < 7 → fb_curr B i = chunk s.curr_pieces i <<< (8 * i) := by
    intro i hi
    unfold fb_curr
    rw [hilog i hi, hcol i hi, mask_recover_curr _ _ (hfacts i hi).1]
  have hopp : ∀ i, i < 7 → fb_opp B i = chunk s.opp_pieces i <<< (8 * i) := by
    intro i hi
    unfold fb_opp
    rw [hilog i hi, hcol i hi, mask_recover_opp _ _ _ (hfacts i hi).1 (hfacts i hi).2.1]
  have hh : ∀ i, i < 7 → fb_h B i = chunk s.height_map i <<< (8 * i) := by
    intro i hi
    obtain ⟨-, hchunk, -, -⟩ := hcols i hi
    unfold fb_h
    rw [hilog i hi, hchunk, Nat.shiftLeft_eq, Nat.shiftLeft_eq, Nat.one_mul, Nat.pow_add]
  rw [from_bitboard_expand]
  obtain ⟨sc, so, sh, sm⟩ := s
  simp only [State.mk.injEq]
  refine ⟨?_, ?_, ?_, ?_⟩
  · rw [hcurr 0 (by omega), hcurr 1 (by omega), hcurr 2 (by omega), hcurr 3 (by omega),
      hcurr 4 (by omega), hcurr 5 (by omega), hcurr 6 (by omega)]
    exact or_shifted_chunks sc hcurr_lt
  · rw [hopp 0 (by omega), hopp 1 (by omega), hopp 2 (by omega), hopp 3 (by omega),
      hopp 4 (by omega), hopp 5 (by omega), hopp 6 (by omega)]
    exact or_shifted_chunks so hopp_lt
  · rw [hh 0 (by omega), hh 1 (by omega), hh 2 (by omega), hh 3 (by omega),
      hh 4 (by omega), hh 5 (by omega), hh 6 (by omega)]
    exact or_shifted_chunks sh hheight_lt
  · rw [hilog 0 (by omega), hilog 1 (by omega), hilog 2 (by omega), hilog 3 (by omega),
      hilog 4 (by omega), hilog 5 (by omega), hilog 6 (by omega)]
    have hm2 : sm = (List.map (fun c => ((hts c : Nat) : Int)) (List.range 7)).sum := hmoves
    rw [hm2]
    simp only [List.range_succ, List.range_zero, List.map_append, List.map_cons, List.map_nil,
      List.sum_append, List.sum_cons, List.sum_nil, List.nil_append]
    omega

theorem reachable_valid (s : State) (hr : Reachable s) : ValidState s := by
  induction hr with
  | start => exact valid_start
  | step s col hcol hlegal h ih => exact valid_play_move s ih col hcol hlegal

/-! ### C6 claim theorems -/

/-- C6 counterexample: the state after one legal move in column 6 is
reachable, yet from_bitboard applied to its to_bitboard (which canonicalises
by reflection, and this board's reflection is smaller) returns the mirrored
state, not the state itself. -/
theorem C6_counterexample :
    Reachable (State.start_state.play_move 6) ∧
      State.from_bitboard ((State.start_state.play_move 6).to_bitboard) ≠
        State.start_state.play_move 6 :=
  ⟨Reachable.step State.start_state 6 (by norm_num) (by decide) Reachable.start, by decide⟩

/-- C6 (amended): for every state reachable from the empty board by legal
moves, from_bitboard recovers the state from the non-canonicalised board word
curr_pieces ||| height_map; the round trip through to_bitboard itself fails
whenever the reflected word is smaller, because to_bitboard canonicalises
under reflection. -/
theorem C6_from_bitboard_roundtrip (s : State) (hr : Reachable s) :
    State.from_bitboard (s.curr_pieces ||| s.height_map) = s :=
  from_bitboard_roundtrip s (reachable_valid s hr)

/-- Witness for C6 at the state after one legal move in column 3. -/
theorem C6_from_bitboard_roundtrip_witness :
    Reachable (State.start_state.play_move 3) ∧
      State.from_bitboard ((State.start_state.play_move 3).curr_pieces |||
        (State.start_state.play_move 3).height_map) = State.start_state.play_move 3 := by
  have hr : Reachable (State.start_state.play_move 3) :=
    Reachable.step State.start_state 3 (by norm_num) (by decide) Reachable.start
  exact ⟨hr, C6_from_bitboard_roundtrip _ hr⟩

/-! ### Caches (src/engine.rs lines 29-58 and 159-266, src/caches.rs)

The DashMap<u64, i8> early-game maps are modelled as function maps
Nat → Option Int, the Vec<u64> late-game tables as function maps from index
to stored word (initialised to 0, as vec![0; CACHE_SIZE]).  i8 casts are
modelled exactly where Rust casts: create_cache_entry wraps through u64,
get_cache_entry_eval narrows the high byte through i8. -/

structure StateCaches where
  beg_game_lower_bound_cache : Nat → Option Int
  beg_game_upper_bound_cache : Nat → Option Int
  end_game_lower_bound_cache : Nat → Nat
  end_game_upper_bound_cache : Nat → Nat

def StateCaches.new : StateCaches :=
  ⟨fun _ => none, fun _ => none, fun _ => 0, fun _ => 0⟩

/-- Rust (x as u64) for an i8-range Int: two's-complement embedding. -/
def i8_to_u64 (x : Int) : Nat := (x.emod (2 ^ 64)).toNat

/-- Rust (n as i8) narrowing of a u64: the low byte reinterpreted signed. -/
def u64_to_i8 (n : Nat) : Int := if n % 256 < 128 then (n % 256 : Int) else (n % 256 : Int) - 256

def cache_index (state : Nat) : Nat := state % CACHE_SIZE

def create_cache_entry (state : Nat) (bound : Int) : Nat :=
  state ||| ((i8_to_u64 (bound + MAX_PLAYER_MOVES) <<< CACHE_VALUE_SHIFT) % 2 ^ 64)

def get_cache_entry_eval (cache_entry : Nat) : Int :=
  u64_to_i8 (cache_entry >>> CACHE_VALUE_SHIFT) - MAX_PLAYER_MOVES

def cache_lookup (state : Nat) (moves_made : Int) (ci : Nat)
    (beg_game_cache : Nat → Option Int) (end_game_cache : Nat → Nat)
    (default_bound : Int) : Int :=
  if moves_made ≤ BEGINNING_GAME_CACHE_DEPTH then
    match beg_game_cache state with
    | some cache_bound => cache_bound
    | none => default_bound
  else
    let cache_entry := end_game_cache ci
    if cache_entry &&& BOARD_MASK = state then get_cache_entry_eval cache_entry
    else default_bound

def lower_bound_cache_lookup (state : Nat) (moves_made : Int) (ci : Nat)
    (caches : StateCaches) : Int :=
  cache_lookup state moves_made ci caches.beg_game_lower_bound_cache
    caches.end_game_lower_bound_cache MIN_EVAL

def upper_bound_cache_lookup (state : Nat) (moves_made : Int) (ci : Nat)
    (caches : StateCaches) : Int :=
  cache_lookup state moves_made ci caches.beg_game_upper_bound_cache
    caches.end_game_upper_bound_cache MAX_EVAL

/-- cache_put from src/engine.rs: late-game always-replace, early-game upsert
merging through cmp (entry(state).and_modify(cmp).or_insert(bound)). -/
def cache_put (bound : Int) (state : Nat) (moves_made : Int) (ci : Nat)
    (beg_game_cache : Nat → Option Int) (end_game_cache : Nat → Nat)
    (cmp : Int → Int → Int) : (Nat → Option Int) × (Nat → Nat) :=
  if moves_made > BEGINNING_GAME_CACHE_DEPTH then
    (beg_game_cache,
      fun i => if i = ci then create_cache_entry state bound else end_game_cache i)
  else
    (fun k => if k = state then
        match beg_game_cache state with
        | some entry => some (cmp entry bound)
        | none => some bound
      else beg_game_cache k,
      end_game_cache)

def cache_put_lower_bound (bound : Int) (state : Nat) (moves_made : Int) (ci : Nat)
    (caches : StateCaches) : StateCaches :=
  let p := cache_put bound state moves_made ci caches.beg_game_lower_bound_cache
    caches.end_game_lower_bound_cache max
  { caches with beg_game_lower_bound_cache := p.1, end_game_lower_bound_cache := p.2 }

def cache_put_upper_bound (bound : Int) (state : Nat) (moves_made : Int) (ci : Nat)
    (caches : StateCaches) : StateCaches :=
  let p := cache_put bound state moves_made ci caches.beg_game_upper_bound_cache
    caches.end_game_upper_bound_cache min
  { caches with beg_game_upper_bound_cache := p.1, end_game_upper_bound_cache := p.2 }

/-! ### Move ordering (src/threats.rs lines 50-68)

The packed-array macros of threats.rs: 4-bit elements, element i at bit
offset 4i (index! is i << 2).  Shifts are reduced modulo 2^32 exactly where
the u32 values of the source wrap. -/

def getF (arr i : Nat) : Nat := (arr >>> (i <<< 2)) &&& 15

def elements_mask (length : Nat) : Nat := (1 <<< (length <<< 2)) - 1

def slice (arr s e : Nat) : Nat := (arr >>> (s <<< 2)) &&& elements_mask (e - s)

def slice_clear (arr s e : Nat) : Nat :=
  arr &&& ((2 ^ 32 - 1) ^^^ ((elements_mask (e - s) <<< (s <<< 2)) % 2 ^ 32))

def element_shift (arr old new : Nat) : Nat := (getF arr old <<< (new <<< 2)) % 2 ^ 32

def slice_shift (arr s e new : Nat) : Nat := (slice arr s e <<< (new <<< 2)) % 2 ^ 32

/-- The inner while loop of sort_by_threats: starting from j = i, decrement j
while j > 0 and the current column's threat count strictly exceeds that of
the column at order position j - 1; returns the final j. -/
def insert_pos (col_threats move_order curr_threats : Nat) : Nat → Nat
  | 0 => 0
  | j + 1 =>
      if curr_threats > getF col_threats (getF move_order j) then
        insert_pos col_threats move_order curr_threats j
      else j + 1

/-- One iteration of the sort_by_threats for loop. -/
def sbt_step (col_threats move_order i : Nat) : Nat :=
  let curr_col := getF move_order i
  let curr_threats := getF col_threats curr_col
  let j := insert_pos col_threats move_order curr_threats i
  slice_clear move_order j (i + 1) ||| element_shift move_order i j |||
    slice_shift move_order j i (j + 1)

def sort_by_threats (col_threats : Nat) : Nat :=
  (List.range 7).foldl (fun move_order i => sbt_step col_threats move_order i) DEFAULT_MOVE_ORDER

/-! ### The search core (src/engine.rs lines 268-431)

i8 right shift by one is an arithmetic shift, i.e. floor division by two;
on Int with the positive divisor 2 this is exactly `/`. -/

def min_eval (moves_made : Int) : Int := -(MAX_PLAYER_MOVES - (moves_made + 1) / 2)

def max_eval (moves_made : Int) : Int := MAX_PLAYER_MOVES - moves_made / 2

def next_moves (move_order : Nat) (height_map : Nat) : List (Nat × Nat) :=
  (List.range 7).filterMap (fun i =>
    let col := (move_order >>> (i <<< 2)) &&& 15
    let next_move := open_row height_map col
    if next_move &&& IS_LEGAL ≠ 0 then some (col, next_move) else none)

/-- The first enumeration pass of evaluate_position (the for loop over the
default move order): immediate-win return, forced-reply detection, the
cached-upper-bound pre-pruning of children, and threat accumulation (the
latter wrapping as the u32 shift in the source does).  Sum.inl is the early
return, Sum.inr carries (alpha, threats, forced_move_count, forced_move). -/
def enum_pass (curr_pieces opp_pieces height_map : Nat) (moves_made : Int)
    (beta : Int) (caches : StateCaches) :
    List (Nat × Nat) → Int → Nat → Nat → Nat → Sum Int (Int × Nat × Nat × Nat)
  | [], alpha, threats, forced_move_count, forced_move =>
      Sum.inr (alpha, threats, forced_move_count, forced_move)
  | (col, next_move) :: rest, alpha, threats, forced_move_count, forced_move =>
      let updated_pieces := curr_pieces ||| next_move
      if is_win updated_pieces then Sum.inl (max_eval moves_made)
      else
        let forced_move_count' :=
          if is_win (opp_pieces ||| next_move) then forced_move_count + 1 else forced_move_count
        let forced_move' :=
          if is_win (opp_pieces ||| next_move) then next_move else forced_move
        let updated_height_map := height_map + next_move
        let next_state := state_bitboard opp_pieces updated_height_map
        let alpha' := max alpha (-(upper_bound_cache_lookup next_state (moves_made + 1)
          (cache_index next_state) caches))
        if alpha' ≥ beta then Sum.inl alpha'
        else
          enum_pass curr_pieces opp_pieces height_map moves_made beta caches rest alpha'
            (threats ||| ((count_threats updated_pieces updated_height_map <<< (col <<< 2)) % 2 ^ 32))
            forced_move_count' forced_move'

/-- The PVS loop of evaluate_position, abstracted over the child evaluation
(the recursive call at moves_made + 1); threading of alpha, caches and the
node counter follows the source, including the lower-bound store on a beta
cutoff and the upper-bound store when the moves are exhausted. -/
def pvs_loop (child : Nat → Nat → Int → Int → StateCaches → Nat → Int × StateCaches × Nat)
    (curr_pieces height_map state : Nat) (moves_made : Int) (ci : Nat) :
    List (Nat × Nat) → Int → Int → Nat → StateCaches → Nat → Int × StateCaches × Nat
  | [], alpha, _beta, _moves_searched, caches, pos =>
      (alpha, cache_put_upper_bound alpha state moves_made ci caches, pos)
  | (_col, next_move) :: rest, alpha, beta, moves_searched, caches, pos =>
      let updated_pieces := curr_pieces ||| next_move
      let updated_height_map := height_map + next_move
      let step :=
        if moves_searched = 0 then
          let r := child updated_pieces updated_height_map (-beta) (-alpha) caches pos
          (-r.1, r.2.1, r.2.2)
        else
          let r := child updated_pieces updated_height_map (-alpha - 1) (-alpha) caches pos
          let null_window_eval := -r.1
          if null_window_eval > alpha ∧ null_window_eval < beta then
            let r2 := child updated_pieces updated_height_map (-beta) (-alpha) r.2.1 r.2.2
            (-r2.1, r2.2.1, r2.2.2)
          else
            (null_window_eval, r.2.1, r.2.2)
      let alpha' := max alpha step.1
      if alpha' ≥ beta then
        (alpha', cache_put_lower_bound alpha' state moves_made ci step.2.1, step.2.2)
      else
        pvs_loop child curr_pieces height_map state moves_made ci rest alpha' beta
          (moves_searched + 1) step.2.1 step.2.2

/-- evaluate_position from src/engine.rs, with the mutable caches and node
counter threaded through the return value.  The fuel argument only serves
Lean's termination: every recursive call uses moves_made + 1 and the source
recursion stops at moves_made = 49, so fuel ≥ 50 covers every execution the
source can perform from a nonnegative ply count; the fuel-exhaustion branch
is unreachable there. -/
def evaluate_position : Nat → Nat → Nat → Nat → Int → Int → Int → StateCaches → Nat →
    Int × StateCaches × Nat
  | 0, _, _, _, _, _, _, caches, pos => (DRAW, caches, pos)
  | fuel + 1, curr_pieces, opp_pieces, height_map, moves_made, alpha0, beta0, caches, pos =>
      let pos := pos + 1
      if moves_made = MAX_TOTAL_MOVES then (DRAW, caches, pos)
      else
        let alpha1 := max alpha0 (min_eval moves_made)
        let beta1 := min beta0 (max_eval moves_made)
        let state := state_bitboard curr_pieces height_map
        let ci := cache_index state
        let alpha2 := max alpha1 (lower_bound_cache_lookup state moves_made ci caches)
        if alpha2 ≥ beta1 then (alpha2, caches, pos)
        else
          let beta2 := min beta1 (upper_bound_cache_lookup state moves_made ci caches)
          if alpha2 ≥ beta2 then (alpha2, caches, pos)
          else
            match enum_pass curr_pieces opp_pieces height_map moves_made beta2 caches
              (next_moves DEFAULT_MOVE_ORDER height_map) alpha2 0 0 0 with
            | Sum.inl v => (v, caches, pos)
            | Sum.inr (alpha3, threats, forced_move_count, forced_move) =>
              if forced_move_count > 1 then (min_eval moves_made, caches, pos)
              else if forced_move_count = 1 then
                let r := evaluate_position fuel opp_pieces (curr_pieces ||| forced_move)
                  (height_map + forced_move) (moves_made + 1) (-beta2) (-alpha3) caches pos
                (-r.1, r.2.1, r.2.2)
              else
                let heuristic_move_order := sort_by_threats threats
                pvs_loop
                  (fun up uh a b c p =>
                    evaluate_position fuel opp_pieces up uh (moves_made + 1) a b c p)
                  curr_pieces height_map state moves_made ci
                  (next_moves heuristic_move_order height_map) alpha3 beta2 0 caches pos

/-! ### C7: early-game cache put semantics and monotonicity -/

theorem cache_put_lower_beg (bound : Int) (state : Nat) (moves_made : Int) (ci : Nat)
    (caches : StateCaches) (hm : moves_made ≤ BEGINNING_GAME_CACHE_DEPTH) :
    (cache_put_lower_bound bound state moves_made ci caches).beg_game_lower_bound_cache state =
      some (match caches.beg_game_lower_bound_cache state with
            | some old => max old bound
            | none => bound) := by
  unfold cache_put_lower_bound cache_put
  rw [if_neg (by omega)]
  simp only [if_pos rfl]
  cases caches.beg_game_lower_bound_cache state <;> rfl

theorem cache_put_upper_beg (bound : Int) (state : Nat) (moves_made : Int) (ci : Nat)
    (caches : StateCaches) (hm : moves_made ≤ BEGINNING_GAME_CACHE_DEPTH) :
    (cache_put_upper_bound bound state moves_made ci caches).beg_game_upper_bound_cache state =
      some (match caches.beg_game_upper_bound_cache state with
            | some old => min old bound
            | none => bound) := by
  unfold cache_put_upper_bound cache_put
  rw [if_neg (by omega)]
  simp only [if_pos rfl]
  cases caches.beg_game_upper_bound_cache state <;> rfl

theorem lower_bound_seq_monotone (state : Nat) (moves_made : Int) (ci : Nat)
    (hm : moves_made ≤ BEGINNING_GAME_CACHE_DEPTH) :
    ∀ (bs : List Int) (caches : StateCaches) (v : Int),
      caches.beg_game_lower_bound_cache state = some v →
      ∃ v', (bs.foldl (fun c b => cache_put_lower_bound b state moves_made ci c)
          caches).beg_game_lower_bound_cache state = some v' ∧ v ≤ v'
  | [], caches, v, hv => ⟨v, hv, le_refl v⟩
  | b :: bs, caches, v, hv => by
      have hstep := cache_put_lower_beg b state moves_made ci caches hm
      rw [hv] at hstep
      obtain ⟨v', hv', hle⟩ := lower_bound_seq_monotone state moves_made ci hm bs
        (cache_put_lower_bound b state moves_made ci caches) (max v b) hstep
      exact ⟨v', by simpa using hv', le_trans (le_max_left v b) hle⟩

theorem upper_bound_seq_antitone (state : Nat) (moves_made : Int) (ci : Nat)
    (hm : moves_made ≤ BEGINNING_GAME_CACHE_DEPTH) :
    ∀ (bs : List Int) (caches : StateCaches) (v : Int),
      caches.beg_game_upper_bound_cache state = some v →
      ∃ v', (bs.foldl (fun c b => cache_put_upper_bound b state moves_made ci c)
          caches).beg_game_upper_bound_cache state = some v' ∧ v' ≤ v
  | [], caches, v, hv => ⟨v, hv, le_refl v⟩
  | b :: bs, caches, v, hv => by
      have hstep := cache_put_upper_beg b state moves_made ci caches hm
      rw [hv] at hstep
      obtain ⟨v', hv', hle⟩ := upper_bound_seq_antitone state moves_made ci hm bs
        (cache_put_upper_bound b state moves_made ci caches) (min v b) hstep
      exact ⟨v', by simpa using hv', le_trans hle (min_le_left v b)⟩

/-- C7: for the shared early-game caches (moves_made ≤
BEGINNING_GAME_CACHE_DEPTH), a put with the key present replaces the stored
value by max(old, bound) in the lower-bound cache and min(old, bound) in the
upper-bound cache, a put with the key absent stores bound, and across any
sequence of puts for a fixed key the stored lower bound never decreases and
the stored upper bound never increases. -/
theorem C7_cache_put_monotone (bound : Int) (state : Nat) (moves_made : Int) (ci : Nat)
    (caches : StateCaches) (hm : moves_made ≤ BEGINNING_GAME_CACHE_DEPTH) :
    ((∀ old, caches.beg_game_lower_bound_cache state = some old →
        (cache_put_lower_bound bound state moves_made ci caches).beg_game_lower_bound_cache state
          = some (max old bound)) ∧
      (caches.beg_game_lower_bound_cache state = none →
        (cache_put_lower_bound bound state moves_made ci caches).beg_game_lower_bound_cache state
          = some bound)) ∧
    ((∀ old, caches.beg_game_upper_bound_cache state = some old →
        (cache_put_upper_bound bound state moves_made ci caches).beg_game_upper_bound_cache state
          = some (min old bound)) ∧
      (caches.beg_game_upper_bound_cache state = none →
        (cache_put_upper_bound bound state moves_made ci caches).beg_game_upper_bound_cache state
          = some bound)) ∧
    (∀ (bs : List Int) (c0 : StateCaches) (v : Int),
      c0.beg_game_lower_bound_cache state = some v →
      ∃ v', (bs.foldl (fun c b => cache_put_lower_bound b state moves_made ci c)
          c0).beg_game_lower_bound_cache state = some v' ∧ v ≤ v') ∧
    (∀ (bs : List Int) (c0 : StateCaches) (v : Int),
      c0.beg_game_upper_bound_cache state = some v →
      ∃ v', (bs.foldl (fun c b => cache_put_upper_bound b state moves_made ci c)
          c0).beg_game_upper_bound_cache state = some v' ∧ v' ≤ v) := by
  refine ⟨⟨?_, ?_⟩, ⟨?_, ?_⟩, ?_, ?_⟩
  · intro old hold
    rw [cache_put_lower_beg bound state moves_made ci caches hm, hold]
  · intro hnone
    rw [cache_put_lower_beg bound state moves_made ci caches hm, hnone]
  · intro old hold
    rw [cache_put_upper_beg bound state moves_made ci caches hm, hold]
  · intro hnone
    rw [cache_put_upper_beg bound state moves_made ci caches hm, hnone]
  · exact fun bs c0 v hv => lower_bound_seq_monotone state moves_made ci hm bs c0 v hv
  · exact fun bs c0 v hv => upper_bound_seq_antitone state moves_made ci hm bs c0 v hv

/-- Witness for C7 at moves_made 0, key 5, with a concrete populated cache. -/
theorem C7_cache_put_monotone_witness :
    (0 : Int) ≤ BEGINNING_GAME_CACHE_DEPTH ∧
      ((cache_put_lower_bound 7 5 0 5 (cache_put_lower_bound 3 5 0 5
        StateCaches.new)).beg_game_lower_bound_cache 5 = some (max 3 7) ∧
        (cache_put_lower_bound 3 5 0 5 StateCaches.new).beg_game_lower_bound_cache 5 = some 3) := by
  have h := C7_cache_put_monotone 7 5 0 5 (cache_put_lower_bound 3 5 0 5 StateCaches.new)
    (by decide)
  have h3 : (cache_put_lower_bound 3 5 0 5 StateCaches.new).beg_game_lower_bound_cache 5 =
      some 3 := by decide
  exact ⟨by decide, h.1.1 3 h3, h3⟩

/-! ### C8: immediate winning move -/

def popcount (x : Nat) : Nat := ((List.range 64).filter (x.testBit ·)).length

def legal_state (s : State) : Prop :=
  s.curr_pieces &&& s.opp_pieces = 0 ∧
  one_hot_height_map s.height_map ∧
  s.moves_made = (popcount s.curr_pieces : Int) + (popcount s.opp_pieces : Int)

instance (s : State) : Decidable (legal_state s) := by
  unfold legal_state
  infer_instance

theorem lower_lookup_new (state : Nat) (m : Int) (ci : Nat) (hs : state ≠ 0) :
    lower_bound_cache_lookup state m ci StateCaches.new = MIN_EVAL := by
  unfold lower_bound_cache_lookup cache_lookup StateCaches.new
  rcases le_or_lt m BEGINNING_GAME_CACHE_DEPTH with h | h
  · rw [if_pos h]
  · rw [if_neg (by omega)]
    rw [if_neg (fun hc => hs ((by decide : (0 : Nat) &&& BOARD_MASK = 0) ▸ hc).symm)]

theorem upper_lookup_new (state : Nat) (m : Int) (ci : Nat) (hs : state ≠ 0) :
    upper_bound_cache_lookup state m ci StateCaches.new = MAX_EVAL := by
  unfold upper_bound_cache_lookup cache_lookup StateCaches.new
  rcases le_or_lt m BEGINNING_GAME_CACHE_DEPTH with h | h
  · rw [if_pos h]
  · rw [if_neg (by omega)]
    rw [if_neg (fun hc => hs ((by decide : (0 : Nat) &&& BOARD_MASK = 0) ▸ hc).symm)]

theorem state_bitboard_ne_zero (x y : Nat) (k : Nat) (hk : k < 56) (hbit : y.testBit k = true) :
    state_bitboard x y ≠ 0 := by
  have hB : (x ||| y).testBit k = true := by
    rw [Nat.testBit_or, hbit]
    simp
  have hBne : x ||| y ≠ 0 := (ne_zero_iff_exists_testBit _).mpr ⟨k, hB⟩
  have hc : 6 - k / 8 < 7 := by omega
  have hr : k % 8 < 8 := Nat.mod_lt _ (by norm_num)
  have hRbit : (reflect_bitboard (x ||| y)).testBit (8 * (6 - k / 8) + k % 8) = true := by
    rw [testBit_reflect _ _ _ hc hr]
    have he : 8 * (6 - (6 - k / 8)) + k % 8 = k := by omega
    rw [he, hB]
  have hRne : reflect_bitboard (x ||| y) ≠ 0 :=
    (ne_zero_iff_exists_testBit _).mpr ⟨_, hRbit⟩
  intro hmin
  simp only [state_bitboard] at hmin
  have h1 : 0 < x ||| y := Nat.pos_of_ne_zero hBne
  have h2 : 0 < reflect_bitboard (x ||| y) := Nat.pos_of_ne_zero hRne
  have h3 : 0 < min (x ||| y) (reflect_bitboard (x ||| y)) := lt_min h1 h2
  omega

theorem mem_next_moves (height_map col : Nat) (hcol : col < 7)
    (hlegal : open_row height_map col &&& IS_LEGAL ≠ 0) :
    (col, open_row height_map col) ∈ next_moves DEFAULT_MOVE_ORDER height_map := by
  apply List.mem_filterMap.mpr
  interval_cases col
  · exact ⟨6, by decide, by rw [show ((DEFAULT_MOVE_ORDER >>> (6 <<< 2)) &&& 15) = 0 from by decide, if_pos hlegal]⟩
  · exact ⟨4, by decide, by rw [show ((DEFAULT_MOVE_ORDER >>> (4 <<< 2)) &&& 15) = 1 from by decide, if_pos hlegal]⟩
  · exact ⟨1, by decide, by rw [show ((DEFAULT_MOVE_ORDER >>> (1 <<< 2)) &&& 15) = 2 from by decide, if_pos hlegal]⟩
  · exact ⟨0, by decide, by rw [show ((DEFAULT_MOVE_ORDER >>> (0 <<< 2)) &&& 15) = 3 from by decide, if_pos hlegal]⟩
  · exact ⟨2, by decide, by rw [show ((DEFAULT_MOVE_ORDER >>> (2 <<< 2)) &&& 15) = 4 from by decide, if_pos hlegal]⟩
  · exact ⟨3, by decide, by rw [show ((DEFAULT_MOVE_ORDER >>> (3 <<< 2)) &&& 15) = 5 from by decide, if_pos hlegal]⟩
  · exact ⟨5, by decide, by rw [show ((DEFAULT_MOVE_ORDER >>> (5 <<< 2)) &&& 15) = 6 from by decide, if_pos hlegal]⟩

theorem enum_pass_win_fresh (curr opp height : Nat) (m : Int) (beta alpha : Int)
    (halpha : MIN_EVAL ≤ alpha) (hab : alpha < beta) :
    ∀ (moves : List (Nat × Nat)) (t f fm : Nat),
      (∀ p ∈ moves, state_bitboard opp (height + p.2) ≠ 0) →
      (∃ p ∈ moves, is_win (curr ||| p.2) = true) →
      enum_pass curr opp height m beta StateCaches.new moves alpha t f fm =
        Sum.inl (max_eval m)
  | [], t, f, fm, _hnz, hwin => by simp at hwin
  | (col, mv) :: rest, t, f, fm, hnz, hwin => by
      rw [enum_pass]
      by_cases hw : is_win (curr ||| mv)
      · rw [if_pos hw]
      · rw [if_neg hw]
        have hnz0 : state_bitboard opp (height + mv) ≠ 0 := hnz (col, mv) (by simp)
        dsimp only
        rw [upper_lookup_new _ _ _ hnz0]
        have hmax : max alpha (-MAX_EVAL) = alpha := by
          apply max_eq_left
          simp only [MIN_EVAL] at halpha
          omega
        rw [hmax, if_neg (by omega)]
        apply enum_pass_win_fresh curr opp height m beta alpha halpha hab rest
        · intro p hp
          exact hnz p (by simp [hp])
        · obtain ⟨p, hp, hpw⟩ := hwin
          rcases List.mem_cons.mp hp with heq | hmem
          · exfalso
            apply hw
            rw [heq] at hpw
            exact hpw
          · exact ⟨p, hmem, hpw⟩

theorem open_row_one_hot (height : Nat) (hh : one_hot_height_map height) (col : Nat)
    (hcol : col < 7) :
    ∃ k < 8, chunk height col = 2 ^ k ∧ open_row height col = 2 ^ (8 * col + k) := by
  obtain ⟨k, hk, hchunk⟩ := hh col hcol
  have hchunk' : chunk height col = 2 ^ k := hchunk
  refine ⟨k, hk, hchunk', ?_⟩
  rw [open_row, and_mask_eq]
  show chunk height col <<< (8 * col) = _
  rw [hchunk', Nat.shiftLeft_eq, Nat.pow_add]
  ring

theorem mem_next_moves_inv (order height : Nat) (p : Nat × Nat)
    (hp : p ∈ next_moves order height) :
    p.1 < 16 ∧ p.2 = open_row height p.1 ∧ p.2 &&& IS_LEGAL ≠ 0 := by
  obtain ⟨i, hi, hf⟩ := List.mem_filterMap.mp hp
  dsimp only at hf
  by_cases hcond : open_row height ((order >>> (i <<< 2)) &&& 15) &&& IS_LEGAL ≠ 0
  · rw [if_pos hcond] at hf
    have heq := Option.some.inj hf
    have h1 : p.1 = (order >>> (i <<< 2)) &&& 15 := by rw [← heq]
    have h2 : p.2 = open_row height ((order >>> (i <<< 2)) &&& 15) := by rw [← heq]
    refine ⟨?_, ?_, ?_⟩
    · rw [h1]
      have hle := Nat.and_le_right (n := order >>> (i <<< 2)) (m := 15)
      omega
    · rw [h2, h1]
    · rw [h2]
      exact hcond
  · rw [if_neg hcond] at hf
    exact absurd hf (by simp)

theorem open_row_illegal_high (x c : Nat) (hc : 7 ≤ c) :
    open_row x c &&& IS_LEGAL = 0 := by
  apply Nat.eq_of_testBit_eq
  intro n
  simp only [open_row, Nat.testBit_and, Nat.testBit_shiftLeft, testBit_255, Nat.zero_testBit]
  by_cases hn : n < 56
  · have hsh : ¬(c <<< 3 ≤ n) := by
      rw [Nat.shiftLeft_eq]
      omega
    simp [hsh]
  · have hleg : IS_LEGAL.testBit n = false := by
      apply Nat.testBit_lt_two_pow
      calc IS_LEGAL < 2 ^ 56 := by decide
      _ ≤ 2 ^ n := Nat.pow_le_pow_right (by norm_num) (by omega)
    simp [hleg]

theorem height_bit_of_chunk (height c k : Nat) (hc : c < 7) (hk : k < 8)
    (hchunk : chunk height c = 2 ^ k) : height.testBit (8 * c + k) = true := by
  have h1 := testBit_chunk height c k hk
  rw [hchunk, Nat.testBit_two_pow_self] at h1
  exact h1.symm

theorem C8_helper_child_ne (s : State) (honehot : one_hot_height_map s.height_map) :
    ∀ p ∈ next_moves DEFAULT_MOVE_ORDER s.height_map,
      state_bitboard s.opp_pieces (s.height_map + p.2) ≠ 0 := by
  intro p hp
  obtain ⟨hp16, hpmv, hpleg⟩ := mem_next_moves_inv _ _ p hp
  have hp7 : p.1 < 7 := by
    by_contra hge
    apply hpleg
    rw [hpmv]
    exact open_row_illegal_high _ _ (by omega)
  obtain ⟨k, hk, hchunk, hor⟩ := open_row_one_hot s.height_map honehot p.1 hp7
  have hmv : p.2 = 2 ^ (8 * p.1 + k) := by rw [hpmv, hor]
  have hk7 : k < 7 := by
    apply (legal_iff p.1 k hp7 (by omega)).mp
    rw [← hmv]
    exact hpleg
  obtain ⟨k0, hk0, hchunk0⟩ := honehot 0 (by norm_num)
  have hchunk0' : chunk s.height_map 0 = 2 ^ k0 := hchunk0
  by_cases h0 : (0 : Nat) = p.1
  · -- move in column 0: its chunk becomes 2^(k+1)
    have hnc : chunk s.height_map p.1 + 2 ^ k < 256 := by
      rw [hchunk]
      have : (2 : Nat) ^ k ≤ 64 := by
        calc (2 : Nat) ^ k ≤ 2 ^ 6 := Nat.pow_le_pow_right (by norm_num) (by omega)
        _ = 64 := by norm_num
      omega
    have hadd := chunk_add_pow s.height_map p.1 k hp7 (by omega) hnc 0 (by norm_num)
    rw [if_pos h0, hchunk] at hadd
    have hpow : (2 : Nat) ^ k + 2 ^ k = 2 ^ (k + 1) := by
      rw [Nat.pow_succ]
      ring
    rw [hpow] at hadd
    have hbit : (s.height_map + p.2).testBit (8 * 0 + (k + 1)) = true := by
      apply height_bit_of_chunk _ 0 (k + 1) (by norm_num) (by omega)
      rw [hmv]
      exact hadd
    apply state_bitboard_ne_zero _ _ (8 * 0 + (k + 1)) (by omega) hbit
  · have hadd := chunk_add_pow s.height_map p.1 k hp7 (by omega)
      (by
        rw [hchunk]
        have : (2 : Nat) ^ k ≤ 64 := by
          calc (2 : Nat) ^ k ≤ 2 ^ 6 := Nat.pow_le_pow_right (by norm_num) (by omega)
          _ = 64 := by norm_num
        omega) 0 (by norm_num)
    rw [if_neg h0, hchunk0'] at hadd
    have hbit : (s.height_map + p.2).testBit (8 * 0 + k0) = true := by
      apply height_bit_of_chunk _ 0 k0 (by norm_num) hk0
      rw [hmv]
      exact hadd
    apply state_bitboard_ne_zero _ _ (8 * 0 + k0) (by omega) hbit

/-- C8: for every legal state with moves_made < 49 in which some legal column
move completes a four-in-a-row for the side to move, evaluate_position with
fresh caches and the full window returns exactly 25 - moves_made / 2, leaves
the caches untouched, and counts exactly one node (it does not recurse). -/
theorem C8_immediate_win (s : State) (hleg : legal_state s) (hm49 : s.moves_made < 49)
    (hwin : ∃ col < 7, (open_row s.height_map col) &&& IS_LEGAL ≠ 0 ∧
        is_win (s.curr_pieces ||| open_row s.height_map col) = true)
    (pos : Nat) :
    evaluate_position 50 s.curr_pieces s.opp_pieces s.height_map s.moves_made
      MIN_EVAL MAX_EVAL StateCaches.new pos
      = (25 - s.moves_made / 2, StateCaches.new, pos + 1) := by
  obtain ⟨hdisj, honehot, hcount⟩ := hleg
  have hm0 : 0 ≤ s.moves_made := by
    rw [hcount]
    positivity
  obtain ⟨k0, hk0, hchunk0⟩ := honehot 0 (by norm_num)
  have hchunk0' : chunk s.height_map 0 = 2 ^ k0 := hchunk0
  have hbit0 : s.height_map.testBit (8 * 0 + k0) = true :=
    height_bit_of_chunk _ 0 k0 (by norm_num) hk0 hchunk0'
  have hroot_ne : state_bitboard s.curr_pieces s.height_map ≠ 0 :=
    state_bitboard_ne_zero _ _ (8 * 0 + k0) (by omega) hbit0
  have hchild_ne := C8_helper_child_ne s honehot
  have hme : min_eval s.moves_made ≤ -1 := by
    simp only [min_eval, MAX_PLAYER_MOVES]
    omega
  have hxe : 1 ≤ max_eval s.moves_made := by
    simp only [max_eval, MAX_PLAYER_MOVES]
    omega
  have hMIN : MIN_EVAL = -22 := by decide
  have hMAX : MAX_EVAL = 22 := by decide
  have halpha2 : max (max MIN_EVAL (min_eval s.moves_made)) MIN_EVAL ≤ -1 :=
    max_le (max_le (by omega) hme) (by omega)
  have hbeta1 : 1 ≤ min MAX_EVAL (max_eval s.moves_made) := le_min (by omega) hxe
  have hbeta2 : 1 ≤ min (min MAX_EVAL (max_eval s.moves_made)) MAX_EVAL :=
    le_min hbeta1 (by omega)
  obtain ⟨wcol, hwcol, hwleg, hwwin⟩ := hwin
  have hwmem : (wcol, open_row s.height_map wcol) ∈
      next_moves DEFAULT_MOVE_ORDER s.height_map := mem_next_moves _ _ hwcol hwleg
  rw [show (50 : Nat) = 49 + 1 from rfl, evaluate_position]
  dsimp only
  rw [if_neg (show ¬(s.moves_made = MAX_TOTAL_MOVES) from by
    simp only [MAX_TOTAL_MOVES]
    omega)]
  rw [lower_lookup_new _ _ _ hroot_ne, upper_lookup_new _ _ _ hroot_ne]
  rw [if_neg (show ¬(max (max MIN_EVAL (min_eval s.moves_made)) MIN_EVAL ≥
      min MAX_EVAL (max_eval s.moves_made)) from by omega)]
  rw [if_neg (show ¬(max (max MIN_EVAL (min_eval s.moves_made)) MIN_EVAL ≥
      min (min MAX_EVAL (max_eval s.moves_made)) MAX_EVAL) from by omega)]
  rw [enum_pass_win_fresh s.curr_pieces s.opp_pieces s.height_map s.moves_made
    (min (min MAX_EVAL (max_eval s.moves_made)) MAX_EVAL)
    (max (max MIN_EVAL (min_eval s.moves_made)) MIN_EVAL)
    (le_max_right _ _) (by omega)
    (next_moves DEFAULT_MOVE_ORDER s.height_map) 0 0 0 hchild_ne
    ⟨(wcol, open_row s.height_map wcol), hwmem, hwwin⟩]
  simp only [max_eval, MAX_PLAYER_MOVES]

/-- Concrete legal position: three pieces of the side to move stacked in
column 0, three opposing pieces in column 1, six moves made. -/
def winS : State :=
  { curr_pieces := (1 <<< 0) ||| (1 <<< 1) ||| (1 <<< 2),
    opp_pieces := (1 <<< 8) ||| (1 <<< 9) ||| (1 <<< 10),
    height_map := (1 <<< 3) ||| (1 <<< 11) ||| (1 <<< 16) ||| (1 <<< 24) ||| (1 <<< 32) |||
      (1 <<< 40) ||| (1 <<< 48),
    moves_made := 6 }

/-- Witness for C8 at winS: dropping in column 0 completes a vertical four. -/
theorem C8_immediate_win_witness :
    legal_state winS ∧ winS.moves_made < 49 ∧
      (∃ col < 7, (open_row winS.height_map col) &&& IS_LEGAL ≠ 0 ∧
        is_win (winS.curr_pieces ||| open_row winS.height_map col) = true) ∧
      evaluate_position 50 winS.curr_pieces winS.opp_pieces winS.height_map winS.moves_made
        MIN_EVAL MAX_EVAL StateCaches.new 0 =
        (25 - winS.moves_made / 2, StateCaches.new, 1) :=
  ⟨by decide, by decide, by decide, C8_immediate_win winS (by decide) (by decide) (by decide) 0⟩

end Connect4

namespace Connect4

def bubble (t x : Nat) : List Nat → List Nat
  | [] => [x]
  | y :: rev => if getF t x > getF t y then y :: bubble t x rev else x :: y :: rev

def insertStep (t : Nat) (l : List Nat) (x : Nat) : List Nat := (bubble t x l.reverse).reverse

def spec_sort (t : Nat) : List Nat := [3, 2, 4, 5, 1, 6, 0].foldl (insertStep t) []

def packL : List Nat → Nat
  | [] => 0
  | x :: xs => x + 16 * packL xs

theorem packL_lt : ∀ (l : List Nat), (∀ x ∈ l, x < 16) → packL l < 16 ^ l.length
  | [], _ => by simp [packL]
  | x :: xs, h => by
      have hx : x < 16 := h x (by simp)
      have hxs := packL_lt xs (fun y hy => h y (by simp [hy]))
      simp only [packL, List.length_cons, Nat.pow_succ]
      calc x + 16 * packL xs < 16 + 16 * packL xs := by omega
      _ ≤ 16 * (packL xs + 1) := by ring_nf; omega
      _ ≤ 16 * 16 ^ xs.length := by
            have : packL xs + 1 ≤ 16 ^ xs.length := hxs
            omega
      _ = 16 ^ xs.length * 16 := by ring

theorem packL_append : ∀ (l₁ l₂ : List Nat),
    packL (l₁ ++ l₂) = packL l₁ + 16 ^ l₁.length * packL l₂
  | [], l₂ => by simp [packL]
  | x :: xs, l₂ => by
      show packL (x :: (xs ++ l₂)) = _
      rw [packL, packL_append xs l₂, packL]
      simp only [List.length_cons, Nat.pow_succ]
      ring

theorem packL_shiftRight : ∀ (s : Nat) (l : List Nat), (∀ x ∈ l, x < 16) →
    packL l >>> (4 * s) = packL (l.drop s)
  | 0, l, _ => by simp
  | s + 1, [], _ => by simp [packL, Nat.zero_shiftRight]
  | s + 1, x :: xs, h => by
      have hx : x < 16 := h x (by simp)
      have hstep : packL (x :: xs) >>> 4 = packL xs := by
        rw [Nat.shiftRight_eq_div_pow]
        show (x + 16 * packL xs) / 2 ^ 4 = packL xs
        omega
      have h4 : 4 * (s + 1) = 4 + 4 * s := by ring
      rw [h4, Nat.shiftRight_add, hstep,
        packL_shiftRight s xs (fun y hy => h y (by simp [hy]))]
      rfl

theorem elements_mask_eq (n : Nat) : elements_mask n = 16 ^ n - 1 := by
  rw [elements_mask, Nat.shiftLeft_eq, Nat.one_mul]
  have h16 : (2 : Nat) ^ (n <<< 2) = 16 ^ n := by
    rw [Nat.shiftLeft_eq]
    show (2 : Nat) ^ (n * 4) = 16 ^ n
    rw [show (16 : Nat) = 2 ^ 4 from by norm_num, ← Nat.pow_mul, Nat.mul_comm]
  rw [h16]

theorem and_sixteen_pow_sub_one (x k : Nat) : x &&& (16 ^ k - 1) = x % 16 ^ k := by
  have h16 : (16 : Nat) ^ k = 2 ^ (4 * k) := by
    rw [Nat.pow_mul]
  rw [h16, Nat.and_pow_two_sub_one_eq_mod]

theorem packL_mod : ∀ (k : Nat) (l : List Nat), (∀ x ∈ l, x < 16) →
    packL l % 16 ^ k = packL (l.take k) := by
  intro k l h
  have hsplit : l = l.take k ++ l.drop k := (List.take_append_drop k l).symm
  have hlen : (l.take k).length ≤ k := by simp
  have htk : ∀ x ∈ l.take k, x < 16 := fun x hx => h x (List.mem_of_mem_take hx)
  have hlt : packL (l.take k) < 16 ^ k := by
    calc packL (l.take k) < 16 ^ (l.take k).length := packL_lt _ htk
    _ ≤ 16 ^ k := Nat.pow_le_pow_right (by norm_num) hlen
  by_cases hk : k ≤ l.length
  · have hlen2 : (l.take k).length = k := by simp [hk]
    conv_lhs => rw [hsplit]
    rw [packL_append, hlen2, Nat.add_mul_mod_self_left, Nat.mod_eq_of_lt hlt]
  · have hdrop : l.drop k = [] := List.drop_eq_nil_of_le (by omega)
    have htake : l.take k = l := List.take_of_length_le (by omega)
    rw [htake] at hlt ⊢
    rw [Nat.mod_eq_of_lt hlt]

theorem getF_eq (arr i : Nat) : getF arr i = (arr >>> (4 * i)) &&& 15 := by
  rw [getF]
  congr 1
  rw [Nat.shiftLeft_eq]
  ring

theorem getF_packL : ∀ (l : List Nat) (i : Nat), (∀ x ∈ l, x < 16) →
    getF (packL l) i = l.getD i 0 := by
  intro l i h
  rw [getF_eq, packL_shiftRight i l h]
  have h15 : (15 : Nat) = 16 ^ 1 - 1 := by norm_num
  rw [h15, and_sixteen_pow_sub_one,
    packL_mod 1 (l.drop i) (fun x hx => h x (List.mem_of_mem_drop hx))]
  rcases hd : l.drop i with _ | ⟨y, ys⟩
  · have hlen : l.length ≤ i := List.drop_eq_nil_iff.mp hd
    show packL [] = l.getD i 0
    rw [List.getD_eq_getElem?_getD, List.getElem?_eq_none hlen, packL]
    rfl
  · have hgi : l[i]? = some y := by
      have h0 := List.getElem?_drop l i 0
      rw [hd] at h0
      simpa using h0.symm
    show packL [y] = l.getD i 0
    rw [List.getD_eq_getElem?_getD, hgi, packL, packL]
    simp

end Connect4

namespace Connect4

theorem shiftLeft_eq_mul_pow16 (x k : Nat) : x <<< (4 * k) = x * 16 ^ k := by
  rw [Nat.shiftLeft_eq, Nat.pow_mul]

theorem and_shiftLeft_zero_of_lt (x y k : Nat) (hx : x < 2 ^ k) : x &&& (y <<< k) = 0 := by
  apply Nat.eq_of_testBit_eq
  intro n
  simp only [Nat.testBit_and, Nat.testBit_shiftLeft, Nat.zero_testBit]
  by_cases hn : n < k
  · have : ¬(k ≤ n) := by omega
    simp [this]
  · have : x.testBit n = false := Nat.testBit_lt_two_pow
      (Nat.lt_of_lt_of_le hx (Nat.pow_le_pow_right (by norm_num) (by omega)))
    simp [this]

theorem shifted_and_shifted_zero (y z a b m : Nat) (hy : y < 2 ^ m) (hab : a + m ≤ b) :
    (y <<< a) &&& (z <<< b) = 0 := by
  apply Nat.eq_of_testBit_eq
  intro n
  simp only [Nat.testBit_and, Nat.testBit_shiftLeft, Nat.zero_testBit]
  by_cases hn : n < b
  · have hb : ¬(b ≤ n) := by omega
    simp [hb]
  · by_cases ha : a ≤ n
    · have : y.testBit (n - a) = false := Nat.testBit_lt_two_pow
        (Nat.lt_of_lt_of_le hy (Nat.pow_le_pow_right (by norm_num) (by omega)))
      simp [this]
    · simp [ha]

theorem packL_cons_or (x : Nat) (xs : List Nat) (hx : x < 16) :
    packL (x :: xs) = x ||| (packL xs <<< 4) := by
  show x + 16 * packL xs = _
  rw [or_eq_add_of_and_eq_zero x (packL xs <<< 4)
    (and_shiftLeft_zero_of_lt x (packL xs) 4 (by norm_num [hx]))]
  rw [Nat.shiftLeft_eq]
  ring

theorem packL_append_or (P Q : List Nat) (hP : ∀ x ∈ P, x < 16) :
    packL (P ++ Q) = packL P ||| (packL Q <<< (4 * P.length)) := by
  rw [packL_append]
  rw [or_eq_add_of_and_eq_zero (packL P) (packL Q <<< (4 * P.length))
    (and_shiftLeft_zero_of_lt _ _ _ (by
      have := packL_lt P hP
      calc packL P < 16 ^ P.length := this
      _ = 2 ^ (4 * P.length) := by rw [Nat.pow_mul]))]
  rw [shiftLeft_eq_mul_pow16]
  ring

theorem slice_packL (l : List Nat) (s e : Nat) (h : ∀ x ∈ l, x < 16) :
    slice (packL l) s e = packL ((l.drop s).take (e - s)) := by
  rw [slice]
  have h4 : s <<< 2 = 4 * s := by
    rw [Nat.shiftLeft_eq]
    ring
  rw [h4, packL_shiftRight s l h, elements_mask_eq, and_sixteen_pow_sub_one,
    packL_mod _ _ (fun x hx => h x (List.mem_of_mem_drop hx))]

end Connect4

namespace Connect4

theorem testBit_window (len s n : Nat) (hlen : len ≤ 7) (hs : s ≤ 7) :
    (elements_mask len <<< (s <<< 2)).testBit n =
      decide (4 * s ≤ n ∧ n < 4 * s + 4 * len) := by
  have h4 : s <<< 2 = 4 * s := by
    rw [Nat.shiftLeft_eq]
    ring
  have hm : elements_mask len = 2 ^ (4 * len) - 1 := by
    rw [elements_mask_eq, Nat.pow_mul]
  rw [h4, hm, Nat.testBit_shiftLeft, Nat.testBit_two_pow_sub_one]
  by_cases h1 : 4 * s ≤ n
  · by_cases h2 : n < 4 * s + 4 * len <;> simp [h1, h2] <;> omega
  · simp [h1]

theorem window_lt (len s : Nat) (hlen : len ≤ 7) (hs : s ≤ 7) (hsum : s + len ≤ 7) :
    elements_mask len <<< (s <<< 2) < 2 ^ 32 := by
  have h4 : s <<< 2 = 4 * s := by
    rw [Nat.shiftLeft_eq]
    ring
  have hm : elements_mask len = 2 ^ (4 * len) - 1 := by
    rw [elements_mask_eq, Nat.pow_mul]
  rw [h4, hm, Nat.shiftLeft_eq]
  have h1 : (2 ^ (4 * len) - 1 : Nat) < 2 ^ (4 * len) := by
    have : (1 : Nat) ≤ 2 ^ (4 * len) := Nat.one_le_two_pow
    omega
  calc (2 ^ (4 * len) - 1) * 2 ^ (4 * s) < 2 ^ (4 * len) * 2 ^ (4 * s) := by
        apply (Nat.mul_lt_mul_right (Nat.two_pow_pos _)).mpr h1
  _ = 2 ^ (4 * len + 4 * s) := by rw [Nat.pow_add]
  _ ≤ 2 ^ 32 := Nat.pow_le_pow_right (by norm_num) (by omega)

/-- slice_clear on a packed 7-element list, in or-normal form: the fields
below s stay, the fields in [s, e) are zeroed, the fields from e up stay. -/
theorem slice_clear_packL (l : List Nat) (s e : Nat) (h : ∀ x ∈ l, x < 16)
    (hse : s ≤ e) (he : e ≤ 7) (hlen : l.length = 7) :
    slice_clear (packL l) s e =
      packL (l.take s) ||| (packL (l.drop e) <<< (4 * e)) := by
  have hTlt : packL (l.take s) < 2 ^ (4 * s) := by
    have := packL_lt (l.take s) (fun x hx => h x (List.mem_of_mem_take hx))
    calc packL (l.take s) < 16 ^ (l.take s).length := this
    _ ≤ 16 ^ s := Nat.pow_le_pow_right (by norm_num) (by simp)
    _ = 2 ^ (4 * s) := by rw [Nat.pow_mul]
  have hMlt : packL ((l.drop s).take (e - s)) < 2 ^ (4 * (e - s)) := by
    have := packL_lt ((l.drop s).take (e - s))
      (fun x hx => h x (List.mem_of_mem_drop (List.mem_of_mem_take hx)))
    calc packL ((l.drop s).take (e - s)) < 16 ^ ((l.drop s).take (e - s)).length := this
    _ ≤ 16 ^ (e - s) := Nat.pow_le_pow_right (by norm_num) (by simp)
    _ = 2 ^ (4 * (e - s)) := by rw [Nat.pow_mul]
  have hRlt : packL (l.drop e) < 2 ^ (4 * (7 - e)) := by
    have := packL_lt (l.drop e) (fun x hx => h x (List.mem_of_mem_drop hx))
    calc packL (l.drop e) < 16 ^ (l.drop e).length := this
    _ ≤ 16 ^ (7 - e) := Nat.pow_le_pow_right (by norm_num) (by simp [hlen])
    _ = 2 ^ (4 * (7 - e)) := by rw [Nat.pow_mul]
  -- decompose the packed list
  have hdec : packL l = packL (l.take s) |||
      ((packL ((l.drop s).take (e - s)) ||| (packL (l.drop e) <<< (4 * (e - s)))) <<< (4 * s)) := by
    conv_lhs => rw [show l = l.take s ++ l.drop s from (List.take_append_drop s l).symm]
    rw [packL_append_or _ _ (fun x hx => h x (List.mem_of_mem_take hx))]
    congr 2
    · conv_lhs => rw [show l.drop s = (l.drop s).take (e - s) ++ (l.drop s).drop (e - s) from
        (List.take_append_drop (e - s) (l.drop s)).symm]
      rw [packL_append_or _ _ (fun x hx => h x (List.mem_of_mem_drop (List.mem_of_mem_take hx)))]
      rw [List.drop_drop]
      have he2 : s + (e - s) = e := by omega
      have hlen2 : ((l.drop s).take (e - s)).length = e - s := by
        simp [hlen]
        omega
      rw [he2, hlen2]
    · simp [hlen]
      omega
  -- mask analysis
  have hwlt : elements_mask (e - s) <<< (s <<< 2) < 2 ^ 32 :=
    window_lt (e - s) s (by omega) (by omega) (by omega)
  have htestC : ∀ n, ((2 ^ 32 - 1) ^^^ (elements_mask (e - s) <<< (s <<< 2))).testBit n =
      (decide (n < 32) ^^ decide (4 * s ≤ n ∧ n < 4 * s + 4 * (e - s))) := by
    intro n
    rw [Nat.testBit_xor, Nat.testBit_two_pow_sub_one, testBit_window _ _ _ (by omega) (by omega)]
  have hor_shl : ∀ (x y n : Nat), (x ||| y) <<< n = (x <<< n) ||| (y <<< n) := by
    intro x y n
    apply Nat.eq_of_testBit_eq
    intro i
    simp only [Nat.testBit_shiftLeft, Nat.testBit_or]
    by_cases hn : n ≤ i <;> simp [hn]
  have hshl_shl : ∀ (x a b : Nat), (x <<< a) <<< b = x <<< (a + b) := by
    intro x a b
    simp only [Nat.shiftLeft_eq, Nat.pow_add]
    ring
  have hor_and : ∀ (a b c : Nat), (a ||| b) &&& c = (a &&& c) ||| (b &&& c) := by
    intro a b c
    rw [Nat.and_comm, Nat.and_or_distrib_left, Nat.and_comm c a, Nat.and_comm c b]
  rw [slice_clear, Nat.mod_eq_of_lt hwlt, hdec, hor_shl, hshl_shl]
  have he4 : 4 * (e - s) + 4 * s = 4 * e := by omega
  rw [he4]
  rw [hor_and, hor_and]
  have hTC : packL (l.take s) &&& ((2 ^ 32 - 1) ^^^ (elements_mask (e - s) <<< (s <<< 2))) =
      packL (l.take s) := by
    apply Nat.eq_of_testBit_eq
    intro n
    rw [Nat.testBit_and, htestC]
    by_cases hn : n < 4 * s
    · have h32 : n < 32 := by omega
      have hw : ¬(4 * s ≤ n ∧ n < 4 * s + 4 * (e - s)) := by omega
      simp [h32, hw]
    · have hf : (packL (l.take s)).testBit n = false := Nat.testBit_lt_two_pow
        (Nat.lt_of_lt_of_le hTlt (Nat.pow_le_pow_right (by norm_num) (by omega)))
      simp [hf]
  have hMC : (packL ((l.drop s).take (e - s)) <<< (4 * s)) &&&
      ((2 ^ 32 - 1) ^^^ (elements_mask (e - s) <<< (s <<< 2))) = 0 := by
    apply Nat.eq_of_testBit_eq
    intro n
    rw [Nat.testBit_and, htestC]
    simp only [Nat.testBit_shiftLeft, Nat.zero_testBit]
    by_cases hlo : 4 * s ≤ n
    · by_cases hhi : n < 4 * s + 4 * (e - s)
      · have h32 : n < 32 := by omega
        simp [hlo, hhi, h32]
      · have hf : (packL ((l.drop s).take (e - s))).testBit (n - 4 * s) = false :=
          Nat.testBit_lt_two_pow (Nat.lt_of_lt_of_le hMlt
            (Nat.pow_le_pow_right (by norm_num) (by omega)))
        simp [hf]
    · simp [hlo]
  have hRC : (packL (l.drop e) <<< (4 * e)) &&&
      ((2 ^ 32 - 1) ^^^ (elements_mask (e - s) <<< (s <<< 2))) =
      packL (l.drop e) <<< (4 * e) := by
    apply Nat.eq_of_testBit_eq
    intro n
    rw [Nat.testBit_and, htestC]
    simp only [Nat.testBit_shiftLeft]
    by_cases hlo : 4 * e ≤ n
    · by_cases hn : n < 28
      · have h32 : n < 32 := by omega
        have hw : ¬(4 * s ≤ n ∧ n < 4 * s + 4 * (e - s)) := by omega
        simp [hlo, h32, hw]
      · have hf : (packL (l.drop e)).testBit (n - 4 * e) = false :=
          Nat.testBit_lt_two_pow (Nat.lt_of_lt_of_le hRlt
            (Nat.pow_le_pow_right (by norm_num) (by omega)))
        simp [hf]
    · simp [hlo]
  rw [hTC, hMC, hRC, Nat.zero_or]

end Connect4

namespace Connect4

theorem insert_pos_le (t mo ct : Nat) : ∀ i, insert_pos t mo ct i ≤ i
  | 0 => le_refl 0
  | j + 1 => by
      rw [insert_pos]
      split
      · exact le_trans (insert_pos_le t mo ct j) (by omega)
      · exact le_refl _

theorem insert_pos_pass (t mo ct : Nat) : ∀ i m, insert_pos t mo ct i ≤ m → m < i →
    ct > getF t (getF mo m)
  | 0, m, h1, h2 => absurd h2 (by omega)
  | j + 1, m, h1, h2 => by
      rw [insert_pos] at h1
      by_cases hc : ct > getF t (getF mo j)
      · rw [if_pos hc] at h1
        by_cases hm : m = j
        · subst hm
          exact hc
        · exact insert_pos_pass t mo ct j m h1 (by omega)
      · rw [if_neg hc] at h1
        omega

theorem insert_pos_stop (t mo ct : Nat) : ∀ i, insert_pos t mo ct i = 0 ∨
    ¬(ct > getF t (getF mo (insert_pos t mo ct i - 1)))
  | 0 => Or.inl rfl
  | j + 1 => by
      rw [insert_pos]
      by_cases hc : ct > getF t (getF mo j)
      · rw [if_pos hc]
        exact insert_pos_stop t mo ct j
      · rw [if_neg hc]
        right
        simpa using hc

/-- The imperative splice applied by one sort_by_threats iteration, as packed
against the list picture: element i moves to position j, fields j..i-1 shift
up one place. -/
theorem sbt_step_packL (t : Nat) (l : List Nat) (h : ∀ x ∈ l, x < 16) (hlen : l.length = 7)
    (i : Nat) (hi : i < 7) (j : Nat) (hj : j ≤ i)
    (hjdef : insert_pos t (packL l) (getF t (getF (packL l) i)) i = j) :
    sbt_step t (packL l) i =
      packL (l.take j ++ l.getD i 0 :: (((l.drop j).take (i - j)) ++ l.drop (i + 1))) := by
  have hgi : getF (packL l) i = l.getD i 0 := getF_packL l i h
  have hgi16 : l.getD i 0 < 16 := by
    have hlt : i < l.length := by omega
    have hmem : l.getD i 0 ∈ l := by
      rw [List.getD_eq_getElem?_getD, List.getElem?_eq_getElem hlt]
      exact List.getElem_mem hlt
    exact h _ hmem
  have hMlen : ((l.drop j).take (i - j)).length = i - j := by
    simp [hlen]
    omega
  have hTlen : (l.take j).length = j := by
    simp [hlen]
    omega
  have hMentries : ∀ x ∈ (l.drop j).take (i - j), x < 16 :=
    fun x hx => h x (List.mem_of_mem_drop (List.mem_of_mem_take hx))
  have hMlt : packL ((l.drop j).take (i - j)) < 16 ^ (i - j) := by
    have := packL_lt _ hMentries
    rw [hMlen] at this
    exact this
  have h1 : slice_clear (packL l) j (i + 1) =
      packL (l.take j) ||| (packL (l.drop (i + 1)) <<< (4 * (i + 1))) :=
    slice_clear_packL l j (i + 1) h (by omega) (by omega) hlen
  have h2 : element_shift (packL l) i j = (l.getD i 0) <<< (4 * j) := by
    rw [element_shift, hgi]
    have h4 : j <<< 2 = 4 * j := by
      rw [Nat.shiftLeft_eq]
      ring
    rw [h4, Nat.mod_eq_of_lt]
    rw [shiftLeft_eq_mul_pow16]
    calc l.getD i 0 * 16 ^ j < 16 * 16 ^ j :=
          (Nat.mul_lt_mul_right (Nat.pos_pow_of_pos j (by norm_num))).mpr hgi16
    _ = 16 ^ (j + 1) := by rw [Nat.pow_succ]; ring
    _ ≤ 16 ^ 7 := Nat.pow_le_pow_right (by norm_num) (by omega)
    _ < 2 ^ 32 := by norm_num
  have h3 : slice_shift (packL l) j i (j + 1) =
      (packL ((l.drop j).take (i - j))) <<< (4 * (j + 1)) := by
    rw [slice_shift, slice_packL l j i h]
    have h4 : (j + 1) <<< 2 = 4 * (j + 1) := by
      rw [Nat.shiftLeft_eq]
      ring
    rw [h4, Nat.mod_eq_of_lt]
    rw [shiftLeft_eq_mul_pow16]
    calc packL ((l.drop j).take (i - j)) * 16 ^ (j + 1) < 16 ^ (i - j) * 16 ^ (j + 1) :=
          (Nat.mul_lt_mul_right (Nat.pos_pow_of_pos _ (by norm_num))).mpr hMlt
    _ = 16 ^ (i - j + (j + 1)) := by rw [← Nat.pow_add]
    _ ≤ 16 ^ 7 := Nat.pow_le_pow_right (by norm_num) (by omega)
    _ < 2 ^ 32 := by norm_num
  have hrhs : packL (l.take j ++ l.getD i 0 :: (((l.drop j).take (i - j)) ++ l.drop (i + 1))) =
      packL (l.take j) ||| ((l.getD i 0 <<< (4 * j)) |||
        ((packL ((l.drop j).take (i - j)) <<< (4 * (j + 1))) |||
          (packL (l.drop (i + 1)) <<< (4 * (i + 1))))) := by
    rw [packL_append_or _ _ (fun x hx => h x (List.mem_of_mem_take hx)), hTlen]
    rw [packL_cons_or _ _ hgi16]
    rw [packL_append_or _ _ hMentries, hMlen]
    have hor_shl : ∀ (x y n : Nat), (x ||| y) <<< n = (x <<< n) ||| (y <<< n) := by
      intro x y n
      apply Nat.eq_of_testBit_eq
      intro m
      simp only [Nat.testBit_shiftLeft, Nat.testBit_or]
      by_cases hn : n ≤ m <;> simp [hn]
    have hshl_shl : ∀ (x a b : Nat), (x <<< a) <<< b = x <<< (a + b) := by
      intro x a b
      simp only [Nat.shiftLeft_eq, Nat.pow_add]
      ring
    simp only [hor_shl, hshl_shl]
    have e1 : 4 + 4 * j = 4 * (j + 1) := by ring
    have e2 : 4 * (i - j) + 4 + 4 * j = 4 * (i + 1) := by omega
    rw [e1, e2]
  rw [hrhs]
  show slice_clear (packL l) (insert_pos t (packL l) (getF t (getF (packL l) i)) i) (i + 1) |||
      element_shift (packL l) i (insert_pos t (packL l) (getF t (getF (packL l) i)) i) |||
      slice_shift (packL l) (insert_pos t (packL l) (getF t (getF (packL l) i)) i) i
        ((insert_pos t (packL l) (getF t (getF (packL l) i)) i) + 1) = _
  rw [hjdef, h1, h2, h3]
  apply Nat.eq_of_testBit_eq
  intro n
  simp only [Nat.testBit_or]
  cases (packL (l.take j)).testBit n <;>
    cases ((l.getD i 0 <<< (4 * j))).testBit n <;>
      cases ((packL ((l.drop j).take (i - j)) <<< (4 * (j + 1)))).testBit n <;>
        cases ((packL (l.drop (i + 1)) <<< (4 * (i + 1)))).testBit n <;> rfl

end Connect4

namespace Connect4

theorem insertStep_nil (t x : Nat) : insertStep t [] x = [x] := rfl

theorem insertStep_split (t x : Nat) (P : List Nat) (j : Nat) (hj : j ≤ P.length)
    (hpass : ∀ m, j ≤ m → m < P.length → getF t x > getF t (P.getD m 0))
    (hstop : j = 0 ∨ ¬(getF t x > getF t (P.getD (j - 1) 0))) :
    insertStep t P x = P.take j ++ x :: P.drop j := by
  induction P using List.reverseRecOn generalizing j with
  | nil =>
      have hj0 : j = 0 := by simpa using hj
      subst hj0
      rfl
  | append_singleton P' y ih =>
      have hlen : (P' ++ [y]).length = P'.length + 1 := by simp
      by_cases hcy : getF t x > getF t y
      · have hjle : j ≤ P'.length := by
          by_contra hgt
          have hj' : j = P'.length + 1 := by omega
          rcases hstop with h0 | hns
          · omega
          · apply hns
            have : (P' ++ [y]).getD (j - 1) 0 = y := by
              rw [hj']
              simp
            rw [this]
            exact hcy
        have hbub : insertStep t (P' ++ [y]) x = insertStep t P' x ++ [y] := by
          unfold insertStep
          rw [List.reverse_append]
          show (bubble t x (y :: P'.reverse)).reverse = _
          rw [bubble, if_pos hcy]
          simp
        rw [hbub, ih j hjle]
        · have ht : (P' ++ [y]).take j = P'.take j := List.take_append_of_le_length hjle
          have hd : (P' ++ [y]).drop j = P'.drop j ++ [y] := List.drop_append_of_le_length hjle
          rw [ht, hd]
          simp
        · intro m hm1 hm2
          have := hpass m hm1 (by simp; omega)
          rwa [List.getD_append _ _ _ _ (by omega)] at this
        · rcases hstop with h0 | hns
          · exact Or.inl h0
          · by_cases hj0 : j = 0
            · exact Or.inl hj0
            · right
              intro hc
              apply hns
              rwa [List.getD_append _ _ _ _ (by omega)]
      · have hjtop : j = P'.length + 1 := by
          by_contra hne
          have hjle : j ≤ P'.length := by omega
          have := hpass P'.length (by omega) (by simp)
          have hy : (P' ++ [y]).getD P'.length 0 = y := by simp
          rw [hy] at this
          exact hcy this
        have hbub : insertStep t (P' ++ [y]) x = P' ++ [y] ++ [x] := by
          unfold insertStep
          rw [List.reverse_append]
          show (bubble t x (y :: P'.reverse)).reverse = _
          rw [bubble, if_neg hcy]
          simp
        rw [hbub, hjtop]
        have ht : (P' ++ [y]).take (P'.length + 1) = P' ++ [y] := by
          apply List.take_of_length_le
          simp
        have hd : (P' ++ [y]).drop (P'.length + 1) = [] := by
          apply List.drop_eq_nil_of_le
          simp
        rw [ht, hd]

end Connect4

namespace Connect4

def default_list : List Nat := [3, 2, 4, 5, 1, 6, 0]

theorem bubble_perm (t x : Nat) : ∀ Q, (bubble t x Q).Perm (x :: Q)
  | [] => List.Perm.refl _
  | y :: Q' => by
      rw [bubble]
      by_cases hc : getF t x > getF t y
      · rw [if_pos hc]
        exact (List.Perm.cons y (bubble_perm t x Q')).trans (List.Perm.swap x y Q')
      · rw [if_neg hc]

theorem insertStep_perm (t : Nat) (l : List Nat) (x : Nat) :
    (insertStep t l x).Perm (l ++ [x]) := by
  unfold insertStep
  refine (bubble t x l.reverse).reverse_perm.trans ?_
  refine (bubble_perm t x l.reverse).trans ?_
  exact (List.Perm.cons x l.reverse_perm).trans (List.perm_append_singleton x l).symm

theorem foldl_insertStep_perm (t : Nat) : ∀ (xs acc : List Nat),
    (xs.foldl (insertStep t) acc).Perm (acc ++ xs)
  | [], acc => by simp
  | x :: xs, acc => by
      have h := (foldl_insertStep_perm t xs (insertStep t acc x)).trans
        ((insertStep_perm t acc x).append_right xs)
      simpa using h

theorem sort_fold_eq (t : Nat) : ∀ i, i ≤ 7 →
    (List.range i).foldl (fun mo k => sbt_step t mo k) DEFAULT_MOVE_ORDER =
      packL (((default_list.take i).foldl (insertStep t) []) ++ default_list.drop i)
  | 0, _ => by
      simp only [List.range_zero, List.foldl_nil, List.take_zero, List.drop_zero,
        List.nil_append]
      decide
  | i + 1, hi => by
      have ih := sort_fold_eq t i (by omega)
      rw [List.range_succ, List.foldl_append, List.foldl_cons, List.foldl_nil, ih]
      set pref := (default_list.take i).foldl (insertStep t) [] with hpref
      set l := pref ++ default_list.drop i with hl
      have hperm : pref.Perm (default_list.take i) := by
        have := foldl_insertStep_perm t (default_list.take i) []
        simpa using this
      have hpreflen : pref.length = i := by
        rw [hperm.length_eq]
        simp [default_list]
        omega
      have hdeflt : ∀ x ∈ default_list, x < 16 := by decide
      have hentries : ∀ x ∈ l, x < 16 := by
        intro x hx
        rcases List.mem_append.mp hx with hx | hx
        · exact hdeflt x (List.mem_of_mem_take (hperm.mem_iff.mp hx))
        · exact hdeflt x (List.mem_of_mem_drop hx)
      have hllen : l.length = 7 := by
        simp [hl, hpreflen, default_list]
        omega
      have hgetd : ∀ m, m < i → l.getD m 0 = pref.getD m 0 := by
        intro m hm
        rw [hl, List.getD_append _ _ _ _ (by omega)]
      have hx : l.getD i 0 = default_list.getD i 0 := by
        rw [hl]
        have h0 := List.getElem?_drop default_list i 0
        rw [Nat.add_zero] at h0
        have : (pref ++ default_list.drop i).getD (pref.length + 0) 0 =
            (default_list.drop i).getD 0 0 := by
          rw [List.getD_append_right _ _ _ _ (by omega)]
          congr 1
          omega
        rw [hpreflen, Nat.add_zero] at this
        rw [this, List.getD_eq_getElem?_getD, h0, List.getD_eq_getElem?_getD]
      set ct := getF t (getF (packL l) i) with hct
      set j := insert_pos t (packL l) ct i with hj
      have hjle : j ≤ i := insert_pos_le t (packL l) ct i
      have hstep := sbt_step_packL t l hentries hllen i (by omega) j hjle hj.symm
      rw [hstep]
      -- rewrite the spliced list into insertStep form
      have htake : l.take j = pref.take j := List.take_append_of_le_length (by omega)
      have hdropj : l.drop j = pref.drop j ++ default_list.drop i :=
        List.drop_append_of_le_length (by omega)
      have hmid : (l.drop j).take (i - j) = pref.drop j := by
        rw [hdropj]
        have hdlen : (pref.drop j).length = i - j := by
          simp [hpreflen]
        rw [List.take_append_of_le_length (by omega)]
        apply List.take_of_length_le
        omega
      have hdropi1 : l.drop (i + 1) = default_list.drop (i + 1) := by
        rw [hl]
        have h1 : i + 1 = pref.length + 1 := by omega
        rw [h1, List.drop_append, List.drop_drop]
        rw [hpreflen]
      have hx : l.getD i 0 = default_list.getD i 0 := by
        rw [hl, List.getD_append_right pref _ 0 i (by omega), hpreflen, Nat.sub_self,
          List.getD_eq_getElem?_getD, List.getD_eq_getElem?_getD, List.getElem?_drop,
          Nat.add_zero]
      rw [htake, hmid, hdropi1, hx]
      have hsplit : insertStep t pref (default_list.getD i 0) =
          pref.take j ++ default_list.getD i 0 :: pref.drop j := by
        apply insertStep_split
        · omega
        · intro m hm1 hm2
          have h1 : insert_pos t (packL l) ct i ≤ m := by omega
          have hp := insert_pos_pass t (packL l) ct i m h1 (by omega)
          rwa [hct, getF_packL l i hentries, hx, getF_packL l m hentries,
            hgetd m (by omega)] at hp
        · by_cases hj0 : j = 0
          · exact Or.inl hj0
          · rcases insert_pos_stop t (packL l) ct i with h0 | hns
            · exact Or.inl (by omega)
            · right
              rw [← hj] at hns
              rwa [hct, getF_packL l i hentries, hx, getF_packL l (j - 1) hentries,
                hgetd (j - 1) (by omega)] at hns
      have hlt : i < default_list.length := by simp [default_list]; omega
      have htakes : default_list.take (i + 1) =
          default_list.take i ++ [default_list.getD i 0] := by
        rw [List.take_succ, List.getElem?_eq_getElem hlt]
        simp [List.getD_eq_getElem?_getD, List.getElem?_eq_getElem hlt]
      rw [htakes, List.foldl_append, List.foldl_cons, List.foldl_nil, ← hpref, hsplit]
      simp


theorem sort_by_threats_eq_spec (t : Nat) : sort_by_threats t = packL (spec_sort t) := by
  have h := sort_fold_eq t 7 (le_refl 7)
  unfold sort_by_threats
  rw [h]
  simp [default_list, spec_sort]

theorem spec_sort_perm (t : Nat) : (spec_sort t).Perm default_list := by
  simpa using foldl_insertStep_perm t default_list []

theorem spec_sort_bound (t : Nat) : ∀ x ∈ spec_sort t, x < 16 := by
  intro x hx
  have hd : ∀ x ∈ default_list, x < 16 := by decide
  exact hd x ((spec_sort_perm t).mem_iff.mp hx)

theorem map_getD_seven (l : List Nat) (h : l.length = 7) :
    (List.range 7).map (fun i => l.getD i 0) = l := by
  apply List.ext_getElem
  · simp [h]
  · intro i hi1 hi2
    simp only [List.getElem_map, List.getElem_range, List.getD_eq_getElem?_getD,
      List.getElem?_eq_getElem hi2, Option.getD_some]

theorem bubble_filter_eq (t x v : Nat) (hx : getF t x = v) :
    ∀ Q, (bubble t x Q).filter (fun c => getF t c == v) =
      x :: Q.filter (fun c => getF t c == v)
  | [] => by simp [bubble, hx]
  | y :: Q' => by
      rw [bubble]
      by_cases hc : getF t x > getF t y
      · rw [if_pos hc]
        have hy : (getF t y == v) = false := by
          simp only [beq_eq_false_iff_ne, ne_eq]
          omega
        simp [List.filter_cons, hy, bubble_filter_eq t x v hx Q']
      · rw [if_neg hc]
        simp [List.filter_cons, hx]

theorem bubble_filter_ne (t x v : Nat) (hx : ¬getF t x = v) :
    ∀ Q, (bubble t x Q).filter (fun c => getF t c == v) =
      Q.filter (fun c => getF t c == v)
  | [] => by simp [bubble, hx]
  | y :: Q' => by
      rw [bubble]
      by_cases hc : getF t x > getF t y
      · rw [if_pos hc]
        simp [List.filter_cons, bubble_filter_ne t x v hx Q']
      · rw [if_neg hc]
        simp [List.filter_cons, hx]

theorem insertStep_filter (t x v : Nat) (P : List Nat) :
    (insertStep t P x).filter (fun c => getF t c == v) =
      if getF t x = v then P.filter (fun c => getF t c == v) ++ [x]
      else P.filter (fun c => getF t c == v) := by
  unfold insertStep
  rw [List.filter_reverse]
  by_cases hx : getF t x = v
  · rw [if_pos hx, bubble_filter_eq t x v hx, List.filter_reverse, List.reverse_cons,
      List.reverse_reverse]
  · rw [if_neg hx, bubble_filter_ne t x v hx, List.filter_reverse, List.reverse_reverse]

theorem foldl_insertStep_filter (t v : Nat) : ∀ (xs acc : List Nat),
    (xs.foldl (insertStep t) acc).filter (fun c => getF t c == v) =
      acc.filter (fun c => getF t c == v) ++ xs.filter (fun c => getF t c == v)
  | [], acc => by simp
  | x :: xs, acc => by
      show ((xs.foldl (insertStep t) (insertStep t acc x)).filter _) = _
      rw [foldl_insertStep_filter t v xs, insertStep_filter, List.filter_cons]
      by_cases hx : getF t x = v
      · simp [hx]
      · simp [hx]

theorem spec_sort_stable (t v : Nat) :
    (spec_sort t).filter (fun c => getF t c == v) =
      default_list.filter (fun c => getF t c == v) := by
  have h := foldl_insertStep_filter t v default_list []
  simpa [spec_sort, default_list] using h

/-- C9: for every 28-bit packed threat vector t, sort_by_threats t equals the
packed stable insertion sort of the default center-out order 3,2,4,5,1,6,0 by
strictly-descending per-column threat count (spec_sort, written from the spec:
each column bubbles left exactly while its threat count strictly exceeds that
of the column on its left); the seven 4-bit fields of the result are a
permutation of 0..6, and columns with equal threat counts keep their default
relative order. -/
theorem C9_sort_by_threats_correct (t : Nat) (ht : t < 2 ^ 28) :
    sort_by_threats t = packL (spec_sort t) ∧
    ((List.range 7).map (getF (sort_by_threats t))).Perm [0, 1, 2, 3, 4, 5, 6] ∧
    ∀ v, (spec_sort t).filter (fun c => getF t c == v) =
      [3, 2, 4, 5, 1, 6, 0].filter (fun c => getF t c == v) := by
  have h1 := sort_by_threats_eq_spec t
  refine ⟨h1, ?_, fun v => spec_sort_stable t v⟩
  have hmapc : (List.range 7).map (getF (sort_by_threats t)) =
      (List.range 7).map (fun i => (spec_sort t).getD i 0) := by
    apply List.map_congr_left
    intro i _
    rw [h1, getF_packL _ i (spec_sort_bound t)]
  rw [hmapc, map_getD_seven _ (by rw [(spec_sort_perm t).length_eq]; rfl)]
  exact (spec_sort_perm t).trans (by decide)

theorem C9_sort_by_threats_correct_witness :
    19088743 < 2 ^ 28 ∧
      (sort_by_threats 19088743 = packL (spec_sort 19088743) ∧
        ((List.range 7).map (getF (sort_by_threats 19088743))).Perm
          [0, 1, 2, 3, 4, 5, 6] ∧
        (spec_sort 19088743).filter (fun c => getF 19088743 c == 2) =
          [3, 2, 4, 5, 1, 6, 0].filter (fun c => getF 19088743 c == 2)) := by
  have h := C9_sort_by_threats_correct 19088743 (by decide)
  exact ⟨by decide, h.1, h.2.1, h.2.2 2⟩

end Connect4

namespace Connect4

/-! ### C3: the cancel-flag variant of the search (spec section 4.4)

Modelled from the spec: src/src/worker_threads.rs line 44 calls
crate::engine::evaluate_position_rec, but src/src/engine.rs as given does not
contain that function — the cancel-flag variant of the search is missing from
src/.  Following spec section 4.4 it is evaluate_position with one extra step
at every recursion entry: read the cooperative cancel flag once and return
no-value if it is set; no-value from any child call propagates straight up
through every frame.  Successive reads of the atomic flag are modelled by the
pure function flag indexed by the node counter at entry (the counter strictly
increases between entries, so distinct entries read distinct indices). -/

/-- Modelled from the spec: the option-valued counterpart of pvs_loop for the
missing evaluate_position_rec; a child returning no-value aborts the loop and
returns no-value with that child's caches and counter. -/
def pvs_loop_rec
    (child : Nat → Nat → Int → Int → StateCaches → Nat → Option Int × StateCaches × Nat)
    (curr_pieces height_map state : Nat) (moves_made : Int) (ci : Nat) :
    List (Nat × Nat) → Int → Int → Nat → StateCaches → Nat →
      Option Int × StateCaches × Nat
  | [], alpha, _beta, _moves_searched, caches, pos =>
      (some alpha, cache_put_upper_bound alpha state moves_made ci caches, pos)
  | (_col, next_move) :: rest, alpha, beta, moves_searched, caches, pos =>
      let updated_pieces := curr_pieces ||| next_move
      let updated_height_map := height_map + next_move
      let step :=
        if moves_searched = 0 then
          let r := child updated_pieces updated_height_map (-beta) (-alpha) caches pos
          (r.1.map (fun v => -v), r.2.1, r.2.2)
        else
          let r := child updated_pieces updated_height_map (-alpha - 1) (-alpha) caches pos
          match r.1 with
          | none => (none, r.2.1, r.2.2)
          | some v =>
              let null_window_eval := -v
              if null_window_eval > alpha ∧ null_window_eval < beta then
                let r2 := child updated_pieces updated_height_map (-beta) (-alpha) r.2.1 r.2.2
                (r2.1.map (fun v => -v), r2.2.1, r2.2.2)
              else
                (some null_window_eval, r.2.1, r.2.2)
      match step.1 with
      | none => (none, step.2.1, step.2.2)
      | some e =>
          if max alpha e ≥ beta then
            (some (max alpha e), cache_put_lower_bound (max alpha e) state moves_made ci
              step.2.1, step.2.2)
          else
            pvs_loop_rec child curr_pieces height_map state moves_made ci rest (max alpha e)
              beta (moves_searched + 1) step.2.1 step.2.2

/-- Modelled from the spec: the missing evaluate_position_rec.  It only
differs from evaluate_position in the cancellation check at entry (before the
node-counter increment) and in the no-value propagation through the forced
reply and the pvs loop. -/
def evaluate_position_rec (flag : Nat → Bool) :
    Nat → Nat → Nat → Nat → Int → Int → Int → StateCaches → Nat →
      Option Int × StateCaches × Nat
  | 0, _, _, _, _, _, _, caches, pos => (some DRAW, caches, pos)
  | fuel + 1, curr_pieces, opp_pieces, height_map, moves_made, alpha0, beta0, caches, pos =>
      if flag pos then (none, caches, pos)
      else
      let pos := pos + 1
      if moves_made = MAX_TOTAL_MOVES then (some DRAW, caches, pos)
      else
        let alpha1 := max alpha0 (min_eval moves_made)
        let beta1 := min beta0 (max_eval moves_made)
        let state := state_bitboard curr_pieces height_map
        let ci := cache_index state
        let alpha2 := max alpha1 (lower_bound_cache_lookup state moves_made ci caches)
        if alpha2 ≥ beta1 then (some alpha2, caches, pos)
        else
          let beta2 := min beta1 (upper_bound_cache_lookup state moves_made ci caches)
          if alpha2 ≥ beta2 then (some alpha2, caches, pos)
          else
            match enum_pass curr_pieces opp_pieces height_map moves_made beta2 caches
              (next_moves DEFAULT_MOVE_ORDER height_map) alpha2 0 0 0 with
            | Sum.inl v => (some v, caches, pos)
            | Sum.inr (alpha3, threats, forced_move_count, forced_move) =>
              if forced_move_count > 1 then (some (min_eval moves_made), caches, pos)
              else if forced_move_count = 1 then
                let r := evaluate_position_rec flag fuel opp_pieces
                  (curr_pieces ||| forced_move) (height_map + forced_move) (moves_made + 1)
                  (-beta2) (-alpha3) caches pos
                (r.1.map (fun v => -v), r.2.1, r.2.2)
              else
                let heuristic_move_order := sort_by_threats threats
                pvs_loop_rec
                  (fun up uh a b c p =>
                    evaluate_position_rec flag fuel opp_pieces up uh (moves_made + 1) a b c p)
                  curr_pieces height_map state moves_made ci
                  (next_moves heuristic_move_order height_map) alpha3 beta2 0 caches pos



theorem pvs_loop_pos_mono
    (child : Nat → Nat → Int → Int → StateCaches → Nat → Int × StateCaches × Nat)
    (hc : ∀ up uh a b c p, p ≤ (child up uh a b c p).2.2)
    (curr_pieces height_map state : Nat) (moves_made : Int) (ci : Nat) :
    ∀ (L : List (Nat × Nat)) (alpha beta : Int) (ms : Nat) (caches : StateCaches) (pos : Nat),
      pos ≤ (pvs_loop child curr_pieces height_map state moves_made ci L alpha beta ms
        caches pos).2.2
  | [], _, _, _, _, pos => le_refl pos
  | (col, next_move) :: rest, alpha, beta, ms, caches, pos => by
      rw [pvs_loop]
      dsimp only
      by_cases hms : ms = 0
      · rw [if_pos hms]
        dsimp only
        split
        · exact hc _ _ _ _ caches pos
        · exact le_trans (hc _ _ _ _ caches pos)
            (pvs_loop_pos_mono child hc curr_pieces height_map state moves_made ci rest _ _ _ _ _)
      · rw [if_neg hms]
        by_cases hw : -(child (curr_pieces ||| next_move) (height_map + next_move)
            (-alpha - 1) (-alpha) caches pos).1 > alpha ∧
            -(child (curr_pieces ||| next_move) (height_map + next_move)
            (-alpha - 1) (-alpha) caches pos).1 < beta
        · rw [if_pos hw]
          dsimp only
          have h1 := hc (curr_pieces ||| next_move) (height_map + next_move)
            (-alpha - 1) (-alpha) caches pos
          have h2 := hc (curr_pieces ||| next_move) (height_map + next_move) (-beta) (-alpha)
            (child (curr_pieces ||| next_move) (height_map + next_move)
              (-alpha - 1) (-alpha) caches pos).2.1
            (child (curr_pieces ||| next_move) (height_map + next_move)
              (-alpha - 1) (-alpha) caches pos).2.2
          split
          · dsimp only
            omega
          · exact le_trans (le_trans h1 h2)
              (pvs_loop_pos_mono child hc curr_pieces height_map state moves_made ci rest
                _ _ _ _ _)
        · rw [if_neg hw]
          dsimp only
          have h1 := hc (curr_pieces ||| next_move) (height_map + next_move)
            (-alpha - 1) (-alpha) caches pos
          split
          · dsimp only
            omega
          · exact le_trans h1
              (pvs_loop_pos_mono child hc curr_pieces height_map state moves_made ci rest
                _ _ _ _ _)


theorem evaluate_position_pos_mono :
    ∀ (fuel curr_pieces opp_pieces height_map : Nat) (moves_made alpha beta : Int)
      (caches : StateCaches) (pos : Nat),
      pos ≤ (evaluate_position fuel curr_pieces opp_pieces height_map moves_made alpha beta
        caches pos).2.2
  | 0, _, _, _, _, _, _, _, pos => le_refl pos
  | fuel + 1, curr_pieces, opp_pieces, height_map, moves_made, alpha, beta, caches, pos => by
      rw [evaluate_position]
      dsimp only
      split
      · exact Nat.le_succ pos
      split
      · exact Nat.le_succ pos
      split
      · exact Nat.le_succ pos
      split
      · exact Nat.le_succ pos
      · split
        · exact Nat.le_succ pos
        split
        · dsimp only
          exact le_trans (Nat.le_succ pos)
            (evaluate_position_pos_mono fuel _ _ _ _ _ _ _ _)
        · exact le_trans (Nat.le_succ pos)
            (pvs_loop_pos_mono _
              (fun up uh a b c p => evaluate_position_pos_mono fuel opp_pieces up uh
                (moves_made + 1) a b c p) _ _ _ _ _ _ _ _ _ _ _)


theorem pvs_loop_rec_pos_mono
    (child : Nat → Nat → Int → Int → StateCaches → Nat → Option Int × StateCaches × Nat)
    (hc : ∀ up uh a b c p, p ≤ (child up uh a b c p).2.2)
    (curr_pieces height_map state : Nat) (moves_made : Int) (ci : Nat) :
    ∀ (L : List (Nat × Nat)) (alpha beta : Int) (ms : Nat) (caches : StateCaches) (pos : Nat),
      pos ≤ (pvs_loop_rec child curr_pieces height_map state moves_made ci L alpha beta ms
        caches pos).2.2
  | [], _, _, _, _, pos => le_refl pos
  | (col, next_move) :: rest, alpha, beta, ms, caches, pos => by
      rw [pvs_loop_rec]
      dsimp only
      by_cases hms : ms = 0
      · rw [if_pos hms]
        dsimp only
        have h1 := hc (curr_pieces ||| next_move) (height_map + next_move) (-beta) (-alpha)
          caches pos
        cases hr : (child (curr_pieces ||| next_move) (height_map + next_move) (-beta)
            (-alpha) caches pos).1 with
        | none => exact h1
        | some v =>
            simp only [Option.map_some']
            split
            · exact h1
            · exact le_trans h1 (pvs_loop_rec_pos_mono child hc curr_pieces height_map state
                moves_made ci rest _ _ _ _ _)
      · rw [if_neg hms]
        have h2 := hc (curr_pieces ||| next_move) (height_map + next_move) (-alpha - 1)
          (-alpha) caches pos
        cases hr : (child (curr_pieces ||| next_move) (height_map + next_move) (-alpha - 1)
            (-alpha) caches pos).1 with
        | none => exact h2
        | some v =>
            dsimp only
            by_cases hw : -v > alpha ∧ -v < beta
            · rw [if_pos hw]
              dsimp only
              have h3 := hc (curr_pieces ||| next_move) (height_map + next_move) (-beta)
                (-alpha)
                (child (curr_pieces ||| next_move) (height_map + next_move) (-alpha - 1)
                  (-alpha) caches pos).2.1
                (child (curr_pieces ||| next_move) (height_map + next_move) (-alpha - 1)
                  (-alpha) caches pos).2.2
              cases hr2 : (child (curr_pieces ||| next_move) (height_map + next_move) (-beta)
                  (-alpha)
                  (child (curr_pieces ||| next_move) (height_map + next_move) (-alpha - 1)
                    (-alpha) caches pos).2.1
                  (child (curr_pieces ||| next_move) (height_map + next_move) (-alpha - 1)
                    (-alpha) caches pos).2.2).1 with
              | none => exact le_trans h2 h3
              | some w =>
                  simp only [Option.map_some']
                  split
                  · exact le_trans h2 h3
                  · exact le_trans (le_trans h2 h3) (pvs_loop_rec_pos_mono child hc curr_pieces
                      height_map state moves_made ci rest _ _ _ _ _)
            · rw [if_neg hw]
              dsimp only
              split
              · exact h2
              · exact le_trans h2 (pvs_loop_rec_pos_mono child hc curr_pieces height_map state
                  moves_made ci rest _ _ _ _ _)

theorem evaluate_position_rec_pos_mono (flag : Nat → Bool) :
    ∀ (fuel curr_pieces opp_pieces height_map : Nat) (moves_made alpha beta : Int)
      (caches : StateCaches) (pos : Nat),
      pos ≤ (evaluate_position_rec flag fuel curr_pieces opp_pieces height_map moves_made
        alpha beta caches pos).2.2
  | 0, _, _, _, _, _, _, _, pos => le_refl pos
  | fuel + 1, curr_pieces, opp_pieces, height_map, moves_made, alpha, beta, caches, pos => by
      rw [evaluate_position_rec]
      dsimp only
      split
      · exact le_refl pos
      split
      · exact Nat.le_succ pos
      split
      · exact Nat.le_succ pos
      split
      · exact Nat.le_succ pos
      split
      · exact Nat.le_succ pos
      · split
        · exact Nat.le_succ pos
        split
        · dsimp only
          exact le_trans (Nat.le_succ pos)
            (evaluate_position_rec_pos_mono flag fuel _ _ _ _ _ _ _ _)
        · exact le_trans (Nat.le_succ pos)
            (pvs_loop_rec_pos_mono _
              (fun up uh a b c p => evaluate_position_rec_pos_mono flag fuel opp_pieces up uh
                (moves_made + 1) a b c p) _ _ _ _ _ _ _ _ _ _ _)


theorem pvs_loop_rec_none (flag : Nat → Bool)
    (child : Nat → Nat → Int → Int → StateCaches → Nat → Option Int × StateCaches × Nat)
    (hcn : ∀ up uh a b c p, (child up uh a b c p).1 = none →
        flag ((child up uh a b c p).2.2) = true ∧ p ≤ (child up uh a b c p).2.2)
    (hcm : ∀ up uh a b c p, p ≤ (child up uh a b c p).2.2)
    (curr_pieces height_map state : Nat) (moves_made : Int) (ci : Nat) :
    ∀ (L : List (Nat × Nat)) (alpha beta : Int) (ms : Nat) (caches : StateCaches) (pos : Nat),
      (pvs_loop_rec child curr_pieces height_map state moves_made ci L alpha beta ms
          caches pos).1 = none →
        flag ((pvs_loop_rec child curr_pieces height_map state moves_made ci L alpha beta ms
          caches pos).2.2) = true ∧
        pos ≤ (pvs_loop_rec child curr_pieces height_map state moves_made ci L alpha beta ms
          caches pos).2.2
  | [], _, _, _, _, pos => by
      intro h
      simp [pvs_loop_rec] at h
  | (col, next_move) :: rest, alpha, beta, ms, caches, pos => by
      rw [pvs_loop_rec]
      dsimp only
      by_cases hms : ms = 0
      · rw [if_pos hms]
        dsimp only
        have h1 := hcm (curr_pieces ||| next_move) (height_map + next_move) (-beta) (-alpha)
          caches pos
        cases hr : (child (curr_pieces ||| next_move) (height_map + next_move) (-beta)
            (-alpha) caches pos).1 with
        | none =>
            intro _
            exact hcn _ _ _ _ caches pos hr
        | some v =>
            simp only [Option.map_some']
            split
            · intro h
              simp at h
            · intro h
              have ih := pvs_loop_rec_none flag child hcn hcm curr_pieces height_map state
                moves_made ci rest _ _ _ _ _ h
              exact ⟨ih.1, le_trans h1 ih.2⟩
      · rw [if_neg hms]
        have h2 := hcm (curr_pieces ||| next_move) (height_map + next_move) (-alpha - 1)
          (-alpha) caches pos
        cases hr : (child (curr_pieces ||| next_move) (height_map + next_move) (-alpha - 1)
            (-alpha) caches pos).1 with
        | none =>
            intro _
            exact hcn _ _ _ _ caches pos hr
        | some v =>
            dsimp only
            by_cases hw : -v > alpha ∧ -v < beta
            · rw [if_pos hw]
              dsimp only
              have h3 := hcm (curr_pieces ||| next_move) (height_map + next_move) (-beta)
                (-alpha)
                (child (curr_pieces ||| next_move) (height_map + next_move) (-alpha - 1)
                  (-alpha) caches pos).2.1
                (child (curr_pieces ||| next_move) (height_map + next_move) (-alpha - 1)
                  (-alpha) caches pos).2.2
              cases hr2 : (child (curr_pieces ||| next_move) (height_map + next_move) (-beta)
                  (-alpha)
                  (child (curr_pieces ||| next_move) (height_map + next_move) (-alpha - 1)
                    (-alpha) caches pos).2.1
                  (child (curr_pieces ||| next_move) (height_map + next_move) (-alpha - 1)
                    (-alpha) caches pos).2.2).1 with
              | none =>
                  intro _
                  have hh := hcn _ _ _ _ _ _ hr2
                  exact ⟨hh.1, le_trans h2 hh.2⟩
              | some w =>
                  simp only [Option.map_some']
                  split
                  · intro h
                    simp at h
                  · intro h
                    have ih := pvs_loop_rec_none flag child hcn hcm curr_pieces height_map
                      state moves_made ci rest _ _ _ _ _ h
                    exact ⟨ih.1, le_trans (le_trans h2 h3) ih.2⟩
            · rw [if_neg hw]
              dsimp only
              split
              · intro h
                simp at h
              · intro h
                have ih := pvs_loop_rec_none flag child hcn hcm curr_pieces height_map state
                  moves_made ci rest _ _ _ _ _ h
                exact ⟨ih.1, le_trans h2 ih.2⟩


theorem evaluate_position_rec_none (flag : Nat → Bool) :
    ∀ (fuel curr_pieces opp_pieces height_map : Nat) (moves_made alpha beta : Int)
      (caches : StateCaches) (pos : Nat),
      (evaluate_position_rec flag fuel curr_pieces opp_pieces height_map moves_made alpha
          beta caches pos).1 = none →
        flag ((evaluate_position_rec flag fuel curr_pieces opp_pieces height_map moves_made
          alpha beta caches pos).2.2) = true ∧
        pos ≤ (evaluate_position_rec flag fuel curr_pieces opp_pieces height_map moves_made
          alpha beta caches pos).2.2
  | 0, _, _, _, _, _, _, _, pos => by
      intro h
      simp [evaluate_position_rec] at h
  | fuel + 1, curr_pieces, opp_pieces, height_map, moves_made, alpha, beta, caches, pos => by
      rw [evaluate_position_rec]
      dsimp only
      split
      · intro _
        exact ⟨by assumption, le_refl pos⟩
      split
      · intro h
        simp at h
      split
      · intro h
        simp at h
      split
      · intro h
        simp at h
      split
      · intro h
        simp at h
      · split
        · intro h
          simp at h
        split
        · dsimp only
          intro h
          rw [Option.map_eq_none'] at h
          have ih := evaluate_position_rec_none flag fuel _ _ _ _ _ _ _ _ h
          exact ⟨ih.1, le_trans (Nat.le_succ pos) ih.2⟩
        · intro h
          have ih := pvs_loop_rec_none flag _
            (fun up uh a b c p => evaluate_position_rec_none flag fuel opp_pieces up uh
              (moves_made + 1) a b c p)
            (fun up uh a b c p => evaluate_position_rec_pos_mono flag fuel opp_pieces up uh
              (moves_made + 1) a b c p)
            _ _ _ _ _ _ _ _ _ _ _ h
          exact ⟨ih.1, le_trans (Nat.le_succ pos) ih.2⟩


theorem pvs_loop_rec_eq (flag : Nat → Bool)
    (child_rec : Nat → Nat → Int → Int → StateCaches → Nat → Option Int × StateCaches × Nat)
    (child : Nat → Nat → Int → Int → StateCaches → Nat → Int × StateCaches × Nat)
    (hce : ∀ up uh a b c p, (∀ k, p ≤ k → flag k = false) →
        child_rec up uh a b c p = (some (child up uh a b c p).1, (child up uh a b c p).2))
    (hcm : ∀ up uh a b c p, p ≤ (child up uh a b c p).2.2)
    (curr_pieces height_map state : Nat) (moves_made : Int) (ci : Nat) :
    ∀ (L : List (Nat × Nat)) (alpha beta : Int) (ms : Nat) (caches : StateCaches) (pos : Nat),
      (∀ k, pos ≤ k → flag k = false) →
      pvs_loop_rec child_rec curr_pieces height_map state moves_made ci L alpha beta ms
          caches pos =
        (some (pvs_loop child curr_pieces height_map state moves_made ci L alpha beta ms
          caches pos).1,
         (pvs_loop child curr_pieces height_map state moves_made ci L alpha beta ms
          caches pos).2)
  | [], _, _, _, _, pos => fun _ => rfl
  | (col, next_move) :: rest, alpha, beta, ms, caches, pos => by
      intro hflag
      rw [pvs_loop_rec, pvs_loop]
      dsimp only
      by_cases hms : ms = 0
      · simp only [if_pos hms]
        rw [hce _ _ _ _ caches pos hflag]
        simp only [Option.map_some']
        split
        · rfl
        · exact pvs_loop_rec_eq flag child_rec child hce hcm curr_pieces height_map state
            moves_made ci rest _ _ _ _ _
            (fun k hk => hflag k (le_trans (hcm _ _ _ _ caches pos) hk))
      · simp only [if_neg hms]
        rw [hce _ _ _ _ caches pos hflag]
        have h2 := hcm (curr_pieces ||| next_move) (height_map + next_move) (-alpha - 1)
          (-alpha) caches pos
        by_cases hw : -(child (curr_pieces ||| next_move) (height_map + next_move)
            (-alpha - 1) (-alpha) caches pos).1 > alpha ∧
            -(child (curr_pieces ||| next_move) (height_map + next_move)
            (-alpha - 1) (-alpha) caches pos).1 < beta
        · simp only [if_pos hw]
          rw [hce _ _ _ _ _ _ (fun k hk => hflag k (le_trans h2 hk))]
          simp only [Option.map_some']
          have h3 := hcm (curr_pieces ||| next_move) (height_map + next_move) (-beta)
            (-alpha)
            (child (curr_pieces ||| next_move) (height_map + next_move) (-alpha - 1)
              (-alpha) caches pos).2.1
            (child (curr_pieces ||| next_move) (height_map + next_move) (-alpha - 1)
              (-alpha) caches pos).2.2
          split
          · rfl
          · exact pvs_loop_rec_eq flag child_rec child hce hcm curr_pieces height_map state
              moves_made ci rest _ _ _ _ _
              (fun k hk => hflag k (le_trans (le_trans h2 h3) hk))
        · simp only [if_neg hw]
          split
          · rfl
          · exact pvs_loop_rec_eq flag child_rec child hce hcm curr_pieces height_map state
              moves_made ci rest _ _ _ _ _
              (fun k hk => hflag k (le_trans h2 hk))


theorem evaluate_position_rec_complete (flag : Nat → Bool) :
    ∀ (fuel curr_pieces opp_pieces height_map : Nat) (moves_made alpha beta : Int)
      (caches : StateCaches) (pos : Nat),
      (∀ k, pos ≤ k → flag k = false) →
      evaluate_position_rec flag fuel curr_pieces opp_pieces height_map moves_made alpha beta
          caches pos =
        (some (evaluate_position fuel curr_pieces opp_pieces height_map moves_made alpha beta
          caches pos).1,
         (evaluate_position fuel curr_pieces opp_pieces height_map moves_made alpha beta
          caches pos).2)
  | 0, _, _, _, _, _, _, _, pos => fun _ => rfl
  | fuel + 1, curr_pieces, opp_pieces, height_map, moves_made, alpha, beta, caches, pos => by
      intro hflag
      rw [evaluate_position_rec, evaluate_position]
      dsimp only
      rw [if_neg (by rw [hflag pos (le_refl pos)]; exact Bool.false_ne_true)]
      split
      · rfl
      split
      · rfl
      split
      · rfl
      split
      · rfl
      · split
        · rfl
        split
        · dsimp only
          rw [evaluate_position_rec_complete flag fuel _ _ _ _ _ _ _ _
            (fun k hk => hflag k (by omega))]
          simp only [Option.map_some']
        · exact pvs_loop_rec_eq flag _ _
            (fun up uh a b c p hp => evaluate_position_rec_complete flag fuel opp_pieces up uh
              (moves_made + 1) a b c p hp)
            (fun up uh a b c p => evaluate_position_pos_mono fuel opp_pieces up uh
              (moves_made + 1) a b c p)
            _ _ _ _ _ _ _ _ _ _ _ (fun k hk => hflag k (by omega))


/-- C3: the cancel-flag variant of the search (evaluate_position_rec, modelled
from the spec since src/src/engine.rs does not contain the function that
src/src/worker_threads.rs imports from it) returns no-value iff the
cooperative cancel flag is observed set at some recursion entry: if the result
is none then the flag is set at the node-counter value the call returns — the
counter at the entry that observed it, which is at least the starting counter —
and if the flag is never set from the starting counter on, the result is some
of exactly the value evaluate_position computes, with the same final caches
and node counter (the evaluation from the perspective of the side to move). -/
theorem C3_evaluate_position_rec_none_iff (flag : Nat → Bool)
    (fuel curr_pieces opp_pieces height_map : Nat) (moves_made alpha beta : Int)
    (caches : StateCaches) (pos : Nat) :
    ((evaluate_position_rec flag fuel curr_pieces opp_pieces height_map moves_made alpha beta
        caches pos).1 = none →
      flag ((evaluate_position_rec flag fuel curr_pieces opp_pieces height_map moves_made
        alpha beta caches pos).2.2) = true ∧
      pos ≤ (evaluate_position_rec flag fuel curr_pieces opp_pieces height_map moves_made
        alpha beta caches pos).2.2) ∧
    ((∀ k, pos ≤ k → flag k = false) →
      evaluate_position_rec flag fuel curr_pieces opp_pieces height_map moves_made alpha beta
          caches pos =
        (some (evaluate_position fuel curr_pieces opp_pieces height_map moves_made alpha beta
          caches pos).1,
         (evaluate_position fuel curr_pieces opp_pieces height_map moves_made alpha beta
          caches pos).2)) :=
  ⟨evaluate_position_rec_none flag fuel curr_pieces opp_pieces height_map moves_made alpha
     beta caches pos,
   evaluate_position_rec_complete flag fuel curr_pieces opp_pieces height_map moves_made
     alpha beta caches pos⟩

/-- Witness for C3: with a flag that is never set, the rec evaluator on a full
board agrees with evaluate_position. -/
theorem C3_evaluate_position_rec_none_iff_witness :
    evaluate_position_rec (fun _ => false) 1 0 0 0 49 (-22) 22 StateCaches.new 0 =
      (some (evaluate_position 1 0 0 0 49 (-22) 22 StateCaches.new 0).1,
       (evaluate_position 1 0 0 0 49 (-22) 22 StateCaches.new 0).2) :=
  (C3_evaluate_position_rec_none_iff (fun _ => false) 1 0 0 0 49 (-22) 22
    StateCaches.new 0).2 (fun _ _ => rfl)

end Connect4
